import Mathlib

/-!
# keyarm: `secp256k1/Int.cpp`

A shallow embedding of the `Int` class of `src/secp256k1/Int.cpp`, a thin
adapter over GMP's `mpz_t`.  An `mpz_t` is an unbounded signed integer and is
embedded as a Lean `ℤ`; every GMP primitive the class calls is embedded as a
small executable function that follows the GMP manual.  The class itself is
called `BigInt` here, because `Int` is Lean's own integer type.

Conventions:
* a method `void Int::f(args)` becomes `BigInt.f self args : BigInt`;
* `Int *mod`, a pointer that may be null, becomes `Option BigInt`;
* an `unsigned char` buffer becomes a `List Nat` whose entries are `< 256`;
* C `int` results are wrapped to 32 bits with `wrapInt32`;
* `printf` output is recorded in a list of lines.
-/

namespace Keyarm

/-! ## GMP primitives -/

/-- GMP `mpz_cmp`: a positive value if `op1 > op2`, zero if `op1 = op2`, a
negative value if `op1 < op2`.  Only the sign is specified; `-1, 0, 1` are
used. -/
def mpz_cmp (op1 op2 : ℤ) : ℤ :=
  if op1 < op2 then -1 else if op1 = op2 then 0 else 1

/-- GMP `mpz_cmp_ui`: `mpz_cmp` against an `unsigned long`. -/
def mpz_cmp_ui (op1 : ℤ) (op2 : Nat) : ℤ :=
  mpz_cmp op1 (op2 : ℤ)

/-- GMP `mpz_set_ui`: the value of an `unsigned long`. -/
def mpz_set_ui (op : Nat) : ℤ := (op : ℤ)

/-- GMP `mpz_fdiv_q`: the quotient of `n` by `d` rounded towards minus
infinity. -/
def mpz_fdiv_q (n d : ℤ) : ℤ := Int.fdiv n d

/-- GMP `mpz_fdiv_qr`: the floor quotient together with the remainder
`n - q * d`, which has the sign of `d`. -/
def mpz_fdiv_qr (n d : ℤ) : ℤ × ℤ := (Int.fdiv n d, Int.fmod n d)

/-- Number of binary digits of a natural number, by halving; `fuel` bounds the
number of halvings and `fuel = m` always suffices. -/
def bitsAux : Nat → Nat → Nat
  | 0, _ => 0
  | fuel + 1, m => if m = 0 then 0 else bitsAux fuel (m / 2) + 1

/-- GMP `mpz_sizeinbase (op, 2)`: the number of binary digits of `|op|`, exact
for base 2, and `1` when `op` is zero. -/
def mpz_sizeinbase2 (op : ℤ) : Nat :=
  if op = 0 then 1 else bitsAux op.natAbs op.natAbs

/-- GMP `mpz_tstbit`: bit `bit_index` of `op` as `0` or `1`, negative values
being read as if in two's complement. -/
def mpz_tstbit (op : ℤ) (bit_index : Nat) : ℤ :=
  if Int.testBit op bit_index then 1 else 0

/-- GMP `mpz_setbit`: set bit `bit_index` (two's complement view). -/
def mpz_setbit (rop : ℤ) (bit_index : Nat) : ℤ :=
  Int.lor rop ((2 ^ bit_index : Nat) : ℤ)

/-- GMP `mpz_clrbit`: clear bit `bit_index` (two's complement view). -/
def mpz_clrbit (rop : ℤ) (bit_index : Nat) : ℤ :=
  Int.ldiff rop ((2 ^ bit_index : Nat) : ℤ)

/-- The `k` low base-256 digits of `m`, most significant first. -/
def beBytes : Nat → Nat → List Nat
  | 0, _ => []
  | k + 1, m => beBytes k (m / 256) ++ [m % 256]

/-- GMP `mpz_export (rop, countp, 1, 1, 0, 0, op)`: the number of one-byte
words produced; zero when `op` is zero, otherwise the number of bytes needed
for `|op|`. -/
def mpz_export_count (op : ℤ) : Nat :=
  if op = 0 then 0 else (mpz_sizeinbase2 op + 7) / 8

/-- GMP `mpz_export (rop, countp, 1, 1, 0, 0, op)`: the bytes written at `rop`,
the absolute value of `op` most significant byte first; nothing for zero. -/
def mpz_export (op : ℤ) : List Nat :=
  beBytes (mpz_export_count op) op.natAbs

/-- The natural number whose base-256 digits, most significant first, are
`data`. -/
def beValue (data : List Nat) : Nat :=
  data.foldl (fun acc b => acc * 256 + b) 0

/-- GMP `mpz_import (rop, count, 1, 1, 0, 0, data)`: the non-negative integer
whose base-256 digits, most significant first, are the first `count` bytes of
`data`. -/
def mpz_import (count : Nat) (data : List Nat) : ℤ :=
  (beValue (data.take count) : ℤ)

/-! ## C helpers -/

/-- Conversion to a 32-bit C `int` (two's complement wrap-around). -/
def wrapInt32 (x : ℤ) : ℤ := Int.bmod x (2 ^ 32)

/-- Conversion to `uint32_t`, as happens to an argument passed for a
`uint32_t` parameter. -/
def toUInt32 (n : Nat) : Nat := n % 2 ^ 32

/-- Effect of `memset (buff, 0, 32)` on the 32 bytes at `buff`. -/
def memset32 : List Nat := List.replicate 32 0

/-- Store `data` into the buffer `buff` starting `off` bytes after its
beginning; `none` when the pointer or any byte written lies outside the
buffer. -/
def writeAt (buff : List Nat) (off : ℤ) (data : List Nat) : Option (List Nat) :=
  if 0 ≤ off ∧ off + data.length ≤ buff.length then
    some (buff.take off.toNat ++ data ++ buff.drop (off.toNat + data.length))
  else none

/-! ## The class -/

/-- The class `Int`: its only member is `mpz_t num`. -/
structure BigInt where
  num : ℤ
  deriving DecidableEq, Repr

/-- A 32-byte buffer of `unsigned char`. -/
def IsBuffer32 (b : List Nat) : Prop := b.length = 32 ∧ ∀ x ∈ b, x < 256

instance (b : List Nat) : Decidable (IsBuffer32 b) := by
  unfold IsBuffer32; infer_instance

namespace BigInt

/-- Method `Int::CLEAR`. -/
def CLEAR (_self : BigInt) : BigInt := ⟨mpz_set_ui 0⟩

/-- Method `Int::IsGreater`. -/
def IsGreater (self a : BigInt) : Bool := decide (mpz_cmp self.num a.num > 0)

/-- Method `Int::IsGreaterOrEqual`. -/
def IsGreaterOrEqual (self a : BigInt) : Bool := decide (mpz_cmp self.num a.num ≥ 0)

/-- Method `Int::IsLowerOrEqual`. -/
def IsLowerOrEqual (self a : BigInt) : Bool := decide (mpz_cmp self.num a.num ≤ 0)

/-- Method `Int::IsLower`. -/
def IsLower (self a : BigInt) : Bool := decide (mpz_cmp self.num a.num < 0)

/-- Method `Int::IsEqual`. -/
def IsEqual (self a : BigInt) : Bool := decide (mpz_cmp self.num a.num = 0)

/-- Method `Int::GetBitLength`: `mpz_sizeinbase (num, 2)` returned as `int`. -/
def GetBitLength (self : BigInt) : ℤ := wrapInt32 (mpz_sizeinbase2 self.num)

/-- Method `Int::GetSize`: `int r = mpz_sizeinbase (num, 2); return (r + 7) / 8;`
with C's truncating division (`int` addition is taken to wrap). -/
def GetSize (self : BigInt) : ℤ :=
  let r := wrapInt32 (mpz_sizeinbase2 self.num)
  Int.tdiv (wrapInt32 (r + 7)) 8

/-- Method `Int::GetBit`; the argument is converted to `uint32_t`. -/
def GetBit (self : BigInt) (n : Nat) : ℤ := mpz_tstbit self.num (toUInt32 n)

/-- Method `Int::SetBit`; the argument is converted to `uint32_t`. -/
def SetBit (self : BigInt) (n : Nat) : BigInt := ⟨mpz_setbit self.num (toUInt32 n)⟩

/-- Method `Int::ClearBit`; the argument is converted to `uint32_t`. -/
def ClearBit (self : BigInt) (n : Nat) : BigInt := ⟨mpz_clrbit self.num (toUInt32 n)⟩

/-- Method `Int::Get32Bytes`: the 32 bytes at `buff` afterwards.  The buffer is
zeroed, then `mpz_export` writes at `buff + 32 - GetSize ()`; the result is
`none` when that write leaves the buffer. -/
def Get32Bytes (self : BigInt) : Option (List Nat) :=
  writeAt memset32 (32 - self.GetSize) (mpz_export self.num)

/-- Method `Int::Set32Bytes`: `mpz_import (num, 32, 1, 1, 0, 0, buff)`; the
previous value of the receiver is not read. -/
def Set32Bytes (_self : BigInt) (buff : List Nat) : BigInt := ⟨mpz_import 32 buff⟩

end BigInt

/-- What a call of `Int::Div` leaves behind: the receiver, the object behind
`mod` (if the pointer was not null) and the lines printed. -/
structure DivOutcome where
  receiver : BigInt
  mod : Option BigInt
  printed : List String
  deriving DecidableEq, Repr

/-- Method `Int::Div (const Int &a, Int *mod)`.  The receiver, the divisor and
the object behind `mod` are taken to be three distinct objects. -/
def BigInt.Div (self a : BigInt) (mod : Option BigInt) : DivOutcome :=
  if mpz_cmp self.num a.num < 0 then
    ⟨self.CLEAR, mod.map BigInt.CLEAR, []⟩
  else if mpz_cmp_ui a.num 0 = 0 then
    ⟨self, mod, ["Divide by 0!\n"]⟩
  else if mpz_cmp self.num a.num = 0 then
    ⟨⟨mpz_set_ui 1⟩, mod.map BigInt.CLEAR, []⟩
  else
    match mod with
    | some _ => ⟨⟨(mpz_fdiv_qr self.num a.num).1⟩, some ⟨(mpz_fdiv_qr self.num a.num).2⟩, []⟩
    | none => ⟨⟨mpz_fdiv_q self.num a.num⟩, none, []⟩

/-- The division law `a = q * b + r` with `|r| < |b|`, read off the outcome of
a `Div` call that was given a remainder operand. -/
def DivisionLaw (a b : ℤ) (out : DivOutcome) : Prop :=
  match out.mod with
  | some r => a = out.receiver.num * b + r.num ∧ |r.num| < |b|
  | none => False

/-! ## Further primitives and methods -/

/-- GMP `mpz_odd_p`: non-zero exactly when `op` is odd. -/
def mpz_odd_p (op : ℤ) : ℤ := if op % 2 = 1 then 1 else 0

/-- GMP `mpz_even_p`: non-zero exactly when `op` is even. -/
def mpz_even_p (op : ℤ) : ℤ := if mpz_odd_p op = 0 then 1 else 0

/-- GMP `mpz_mul_2exp`: `op1` times 2 raised to `op2`. -/
def mpz_mul_2exp (op1 : ℤ) (op2 : Nat) : ℤ := op1 * 2 ^ op2

/-- Method `Int::IsZero`. -/
def BigInt.IsZero (self : BigInt) : Bool := decide (mpz_cmp_ui self.num 0 = 0)

/-- Method `Int::IsOne`. -/
def BigInt.IsOne (self : BigInt) : Bool := decide (mpz_cmp_ui self.num 1 = 0)

/-- Method `Int::IsPositive`. -/
def BigInt.IsPositive (self : BigInt) : Bool := decide (mpz_cmp_ui self.num 0 ≥ 0)

/-- Method `Int::IsNegative`. -/
def BigInt.IsNegative (self : BigInt) : Bool := decide (mpz_cmp_ui self.num 0 < 0)

/-- Method `Int::IsEven`. -/
def BigInt.IsEven (self : BigInt) : Bool := decide (mpz_even_p self.num ≠ 0)

/-- Method `Int::IsOdd`. -/
def BigInt.IsOdd (self : BigInt) : Bool := decide (mpz_odd_p self.num ≠ 0)

/-- Method `Int::ShiftL`; the argument is converted to `uint32_t`. -/
def BigInt.ShiftL (self : BigInt) (n : Nat) : BigInt := ⟨mpz_mul_2exp self.num (toUInt32 n)⟩

/-- Method `Int::GetByte`, with `n` the value of its `int` argument: a local
32-byte buffer is filled by `Get32Bytes`, then `buffer[n]` is returned for `n`
in `[0, 32)` and 0 otherwise; `none` when `Get32Bytes` writes outside the
buffer. -/
def BigInt.GetByte (self : BigInt) (n : ℤ) : Option Nat :=
  self.Get32Bytes.map (fun buffer => if n ≥ 0 ∧ n < 32 then buffer.getD n.toNat 0 else 0)

/-- The bit-width of a magnitude as the specification words it: `k` is the
least natural number with `|v| < 2 ^ k`. -/
def IsBitWidth (v : ℤ) (k : ℤ) : Prop :=
  ∃ n : Nat, k = (n : ℤ) ∧ |v| < 2 ^ n ∧ ∀ j : Nat, |v| < 2 ^ j → n ≤ j

/-! ## Text conversion -/

/-- The NUL character that ends a C string. -/
def NUL : Char := Char.ofNat 0

/-- The characters of the C string at `str`: everything before the first
NUL. -/
def cString (str : List Char) : List Char := str.takeWhile (fun c => c ≠ NUL)

/-- The character a C program reads at the head of `s`: NUL at the end of the
string. -/
def headC (s : List Char) : Char := s.headD NUL

/-- C `isspace` in the "C" locale: space, `\t`, `\n`, `\v`, `\f`, `\r`. -/
def isspace (c : Char) : Bool := c.toNat = 32 || (9 ≤ c.toNat && c.toNat ≤ 13)

/-- GMP's digit table for bases up to 36: `0-9`, then letters of either case
from 10 on, and 255 for every other character. -/
def digit_value (c : Char) : Nat :=
  if 48 ≤ c.toNat ∧ c.toNat ≤ 57 then c.toNat - 48
  else if 65 ≤ c.toNat ∧ c.toNat ≤ 90 then c.toNat - 65 + 10
  else if 97 ≤ c.toNat ∧ c.toNat ≤ 122 then c.toNat - 97 + 10
  else 255

/-- The value of the digit characters `ds` in base `b`, most significant
first. -/
def numeralValue (b : Nat) (ds : List Char) : Nat :=
  ds.foldl (fun acc c => acc * b + digit_value c) 0

/-- `mpz_set_str`, base detection for `base = 0` on the text after the sign:
`0x`/`0X` hexadecimal, `0b`/`0B` binary, a leading `0` octal, decimal
otherwise; returns the base and the text after the prefix. -/
def detectBase (s : List Char) : Nat × List Char :=
  if headC s = '0' then
    if headC s.tail = 'x' ∨ headC s.tail = 'X' then (16, s.tail.tail)
    else if headC s.tail = 'b' ∨ headC s.tail = 'B' then (2, s.tail.tail)
    else (8, s.tail)
  else (10, s)

/-- `mpz_set_str`, after the base is known: leading zeros and white space are
skipped; an empty rest is the value 0; otherwise white space is dropped and
every remaining character must be a digit of the base (`none` is the return
value -1). -/
def convertDigits (b : Nat) (s : List Char) : Option Nat :=
  let rest := s.dropWhile (fun c => c = '0' || isspace c)
  if rest = [] then some 0
  else
    let digits := rest.filter (fun c => !isspace c)
    if digits.all (fun c => digit_value c < b) then some (numeralValue b digits) else none

/-- GMP `mpz_set_str (rop, str, base)` for `base` 0 or between 2 and 36: the
value stored on success, `none` for the return value -1 (then `rop` is left
as it was).  Leading white space is skipped, a `-` is taken as the sign, the
first character after it must be a digit (a decimal digit when `base = 0`),
and for `base = 0` the base is read off the prefix. -/
def mpz_set_str (str : List Char) (base : Nat) : Option ℤ :=
  let s1 := (cString str).dropWhile isspace
  let negative := headC s1 = '-'
  let s2 := if negative then s1.tail else s1
  if digit_value (headC s2) ≥ (if base = 0 then 10 else base) then none
  else
    let bs := if base = 0 then detectBase s2 else (base, s2)
    match convertDigits bs.1 bs.2 with
    | none => none
    | some x => some (if negative then -(x : ℤ) else (x : ℤ))

/-- The base `mpz_set_str (rop, str, 0)` reads the digits of `str` in. -/
def detectedBase (str : List Char) : Nat :=
  let s1 := (cString str).dropWhile isspace
  (detectBase (if headC s1 = '-' then s1.tail else s1)).1

/-- Number of base-`b` digits of a natural number; `fuel = m` always
suffices. -/
def digitCount (b : Nat) : Nat → Nat → Nat
  | 0, _ => 0
  | fuel + 1, m => if m = 0 then 0 else digitCount b fuel (m / b) + 1

/-- The `k` low base-`b` digits of `m`, most significant first. -/
def beDigits (b : Nat) : Nat → Nat → List Nat
  | 0, _ => []
  | k + 1, m => beDigits b k (m / b) ++ [m % b]

/-- The character for the digit `d`: `0-9`, then lower-case letters. -/
def digitChar (d : Nat) : Char := Char.ofNat (if d < 10 then 48 + d else 87 + d)

/-- Text of an integer in base `b`: `0` for zero, otherwise a `-` for a
negative value followed by the digits of the magnitude without leading
zeros. -/
def intToText (b : Nat) (i : ℤ) : List Char :=
  if i = 0 then ['0']
  else (if i < 0 then ['-'] else []) ++
    (beDigits b (digitCount b i.natAbs i.natAbs) i.natAbs).map digitChar

/-- GMP `mpz_get_str (NULL, base, op)` for `base` between 2 and 36. -/
def mpz_get_str (base : Nat) (op : ℤ) : List Char := intToText base op

/-- C `snprintf (buf, size, "%llu", u)` and `snprintf (buf, size, "%lld", i)`:
the decimal text, cut to `size - 1` characters. -/
def snprintf_ll (size : Nat) (i : ℤ) : List Char := (intToText 10 i).take (size - 1)

/-- The macro `U64STRINGSIZE`. -/
def U64STRINGSIZE : Nat := 30

/-- GMP `mpz_init_set_si` and `mpz_init_set_ui`: the value of the argument. -/
def mpz_init_set_si (op : ℤ) : ℤ := op

/-- GMP `mpz_init_set_str`: `rop` is initialised to 0 and, when the text is
accepted, set to its value. -/
def mpz_init_set_str (str : List Char) (base : Nat) : ℤ := (mpz_set_str str base).getD 0

/-- Constructor `Int::Int (int32_t)` and `Int::Int (uint32_t)`. -/
def BigInt.ofInt32 (i32 : ℤ) : BigInt := ⟨mpz_init_set_si i32⟩

/-- Constructor `Int::Int (const char *)`: `mpz_init_set_str` with base 0, and
0 when it does not return 0. -/
def BigInt.ofText (str : List Char) : BigInt :=
  if (mpz_set_str str 0).isSome then ⟨mpz_init_set_str str 0⟩ else ⟨mpz_set_ui 0⟩

/-- Constructor `Int::Int (uint64_t)`. -/
def BigInt.ofUInt64 (u64 : Nat) : BigInt :=
  ⟨mpz_init_set_str (snprintf_ll U64STRINGSIZE (u64 : ℤ)) 0⟩

/-- Constructor `Int::Int (int64_t)`. -/
def BigInt.ofInt64 (i64 : ℤ) : BigInt :=
  ⟨mpz_init_set_str (snprintf_ll U64STRINGSIZE i64) 0⟩

/-- Method `Int::GetBase2`. -/
def BigInt.GetBase2 (self : BigInt) : List Char := mpz_get_str 2 self.num

/-- Method `Int::GetBase10`. -/
def BigInt.GetBase10 (self : BigInt) : List Char := mpz_get_str 10 self.num

/-- Method `Int::GetBase16`. -/
def BigInt.GetBase16 (self : BigInt) : List Char := mpz_get_str 16 self.num

/-- Method `Int::SetBase10`: the return value of `mpz_set_str` is not
looked at. -/
def BigInt.SetBase10 (self : BigInt) (str : List Char) : BigInt :=
  ⟨(mpz_set_str str 10).getD self.num⟩

/-- Method `Int::SetBase16`. -/
def BigInt.SetBase16 (self : BigInt) (str : List Char) : BigInt :=
  ⟨(mpz_set_str str 16).getD self.num⟩

/-- The value or zero: the digits `ds` read in base `b` when each of them is a
digit of that base, and 0 otherwise. -/
def numeralOrZero (b : Nat) (ds : List Char) : ℤ :=
  if ds.all (fun c => digit_value c < b) then (numeralValue b ds : ℤ) else 0

/-- The specification's reading of an unsigned text numeral: hexadecimal after
a `0x`/`0X` prefix, octal after a leading `0`, decimal otherwise, and 0 when
the text is not a numeral of that base.  With `binary`, the prefix `0b`/`0B`
for base 2 is recognised as well. -/
def readUnsigned (binary : Bool) (r : List Char) : ℤ :=
  if ['0', 'x'] <+: r ∨ ['0', 'X'] <+: r then numeralOrZero 16 (r.drop 2)
  else if binary = true ∧ (['0', 'b'] <+: r ∨ ['0', 'B'] <+: r) then numeralOrZero 2 (r.drop 2)
  else if ['0'] <+: r then numeralOrZero 8 (r.drop 1)
  else numeralOrZero 10 r

/-- The specification's reading of a text numeral with an optional `-`. -/
def readAutoBase (binary : Bool) (s : List Char) : ℤ :=
  if ['-'] <+: s then -(readUnsigned binary (s.drop 1)) else readUnsigned binary s

/-! ## Auxiliary facts -/

theorem mpz_cmp_neg_iff (x y : ℤ) : mpz_cmp x y < 0 ↔ x < y := by
  unfold mpz_cmp; split_ifs <;> omega

theorem mpz_cmp_zero_iff (x y : ℤ) : mpz_cmp x y = 0 ↔ x = y := by
  unfold mpz_cmp
  split_ifs with h1 h2
  · exact iff_of_false (fun h => h) (by omega)
  · simp [h2]
  · simp [h2]

theorem mpz_cmp_pos_iff (x y : ℤ) : 0 < mpz_cmp x y ↔ y < x := by
  unfold mpz_cmp; split_ifs <;> omega

theorem fmod_bounds_of_neg (a : ℤ) {b : ℤ} (hb : b < 0) :
    b < Int.fmod a b ∧ Int.fmod a b ≤ 0 := by
  obtain ⟨n, rfl⟩ := Int.eq_negSucc_of_lt_zero hb
  rcases a with (_ | m) | m
  · simp [Int.fmod]
    exact Int.negSucc_lt_zero n
  · have h1 : m % (n + 1) < n + 1 := Nat.mod_lt _ (Nat.succ_pos n)
    show Int.negSucc n < Int.subNatNat (m % n.succ) n ∧ Int.subNatNat (m % n.succ) n ≤ 0
    rw [Int.subNatNat_eq_coe, Int.negSucc_eq]
    simp only [Nat.succ_eq_add_one]
    omega
  · have h1 : (m + 1) % (n + 1) < n + 1 := Nat.mod_lt _ (Nat.succ_pos n)
    show Int.negSucc n < -Int.ofNat (m.succ % n.succ) ∧ -Int.ofNat (m.succ % n.succ) ≤ 0
    rw [Int.negSucc_eq]
    simp only [Nat.succ_eq_add_one, Int.ofNat_eq_coe]
    omega

theorem fmod_bounds_of_pos (a : ℤ) {b : ℤ} (hb : 0 < b) :
    0 ≤ Int.fmod a b ∧ Int.fmod a b < b :=
  ⟨Int.fmod_nonneg' a hb, Int.fmod_lt_of_pos a hb⟩

theorem fmod_abs_lt (a : ℤ) {b : ℤ} (hb : b ≠ 0) : |Int.fmod a b| < |b| := by
  rcases lt_or_gt_of_ne hb with h | h
  · have := fmod_bounds_of_neg a h
    rw [abs_of_nonpos this.2, abs_of_neg h]; omega
  · have := fmod_bounds_of_pos a h
    rw [abs_of_nonneg this.1, abs_of_pos h]; omega

theorem fdiv_mul_add_fmod (a b : ℤ) : a = Int.fdiv a b * b + Int.fmod a b := by
  have := Int.fdiv_add_fmod a b
  rw [mul_comm] at this
  exact this.symm

/-- The floor quotient of GMP is the floor of the rational quotient. -/
theorem fdiv_eq_floor (a : ℤ) {b : ℤ} (hb : b ≠ 0) :
    Int.fdiv a b = ⌊(a : ℚ) / (b : ℚ)⌋ := by
  symm
  rw [Int.floor_eq_iff]
  have hq : (b : ℚ) ≠ 0 := by exact_mod_cast hb
  have e : (a : ℚ) = (Int.fdiv a b : ℚ) * b + (Int.fmod a b : ℚ) := by
    exact_mod_cast fdiv_mul_add_fmod a b
  have e2 : (a : ℚ) / b = (Int.fdiv a b : ℚ) + (Int.fmod a b : ℚ) / b := by
    rw [e]; field_simp
  rw [e2]
  rcases lt_or_gt_of_ne hb with h | h
  · have hb2 := fmod_bounds_of_neg a h
    have h1 : (b : ℚ) < 0 := by exact_mod_cast h
    have h2 : ((Int.fmod a b : ℤ) : ℚ) ≤ 0 := by exact_mod_cast hb2.2
    have h3 : (b : ℚ) < ((Int.fmod a b : ℤ) : ℚ) := by exact_mod_cast hb2.1
    constructor
    · have : 0 ≤ ((Int.fmod a b : ℤ) : ℚ) / b := div_nonneg_of_nonpos h2 h1.le
      linarith
    · have : ((Int.fmod a b : ℤ) : ℚ) / b < 1 := by
        rw [div_lt_one_of_neg h1]; exact h3
      linarith
  · have hb2 := fmod_bounds_of_pos a h
    have h1 : (0 : ℚ) < b := by exact_mod_cast h
    have h2 : (0 : ℚ) ≤ ((Int.fmod a b : ℤ) : ℚ) := by exact_mod_cast hb2.1
    have h3 : ((Int.fmod a b : ℤ) : ℚ) < b := by exact_mod_cast hb2.2
    constructor
    · have : 0 ≤ ((Int.fmod a b : ℤ) : ℚ) / b := div_nonneg h2 h1.le
      linarith
    · have : ((Int.fmod a b : ℤ) : ℚ) / b < 1 := by
        rw [div_lt_one h1]; exact h3
      linarith

/-- The three early exits and the general branch of `Div`, by cases on the
operands. -/
theorem Div_cases (a b r0 : ℤ) :
    BigInt.Div ⟨a⟩ ⟨b⟩ (some ⟨r0⟩) =
      if a < b then ⟨⟨0⟩, some ⟨0⟩, []⟩
      else if b = 0 then ⟨⟨a⟩, some ⟨r0⟩, ["Divide by 0!\n"]⟩
      else if a = b then ⟨⟨1⟩, some ⟨0⟩, []⟩
      else ⟨⟨Int.fdiv a b⟩, some ⟨Int.fmod a b⟩, []⟩ := by
  simp only [BigInt.Div, mpz_cmp_neg_iff, mpz_cmp_ui, mpz_cmp_zero_iff, BigInt.CLEAR,
    mpz_set_ui, Option.map_some', mpz_fdiv_qr, Nat.cast_zero, Nat.cast_one]

/-! ## Division -/

/-- C1 (as stated, refuted): with receiver 3, divisor 5 and a remainder operand
holding 7, `Div` takes its first exit and leaves quotient 0 and remainder 0,
which do not satisfy `3 = q * 5 + r`, although the divisor is not zero. -/
theorem Div_law_counterexample :
    (5 : ℤ) ≠ 0 ∧
    BigInt.Div ⟨3⟩ ⟨5⟩ (some ⟨7⟩) = ⟨⟨0⟩, some ⟨0⟩, []⟩ ∧
    ¬ DivisionLaw 3 5 (BigInt.Div ⟨3⟩ ⟨5⟩ (some ⟨7⟩)) := by
  refine ⟨by decide, by decide, ?_⟩
  have h : BigInt.Div ⟨3⟩ ⟨5⟩ (some ⟨7⟩) = ⟨⟨0⟩, some ⟨0⟩, []⟩ := by decide
  rw [h]
  simp [DivisionLaw]

/-- C1 (amended): for every integer `a` and every nonzero integer `b`, the
quotient `q` and remainder `r` left by `Div (b, &r)` on a receiver holding `a`
satisfy `a = q * b + r` and `|r| < |b|` exactly when `b ≤ a` as signed
integers or `a = 0`. -/
theorem Div_law_iff (a b r0 : ℤ) (hb : b ≠ 0) :
    DivisionLaw a b (BigInt.Div ⟨a⟩ ⟨b⟩ (some ⟨r0⟩)) ↔ (b ≤ a ∨ a = 0) := by
  rw [Div_cases]
  have hb0 : 0 < |b| := abs_pos.mpr hb
  by_cases h1 : a < b
  · simp only [h1, if_true, DivisionLaw, zero_mul, add_zero, abs_zero, hb0, and_true]
    constructor
    · intro h; exact Or.inr h
    · rintro (h | h)
      · omega
      · exact h
  · simp only [h1, if_false, hb]
    have h2 : b ≤ a := not_lt.mp h1
    by_cases h3 : a = b
    · subst h3
      simp [DivisionLaw, hb0]
    · simp only [h3, if_false, DivisionLaw]
      exact iff_of_true ⟨fdiv_mul_add_fmod a b, fmod_abs_lt a hb⟩ (Or.inl h2)

/-- Concrete instance: receiver 5, divisor 3. -/
theorem Div_law_iff_witness :
    (3 : ℤ) ≠ 0 ∧
    (DivisionLaw 5 3 (BigInt.Div ⟨5⟩ ⟨3⟩ (some ⟨7⟩)) ↔ ((3 : ℤ) ≤ 5 ∨ (5 : ℤ) = 0)) :=
  ⟨by decide, Div_law_iff 5 3 7 (by decide)⟩

/-- C2 (the code at the failing input, and on every input with divisor zero):
a receiver `a ≥ 0` and the remainder operand are left as they were and the
diagnostic line is printed, but a negative receiver takes the first exit, so
receiver and remainder operand are both cleared and nothing is printed; with
receiver -1 and remainder operand 7 both end at 0. -/
theorem Div_by_zero_outcome :
    (∀ a r0 : ℤ, BigInt.Div ⟨a⟩ ⟨0⟩ (some ⟨r0⟩) =
      if a < 0 then ⟨⟨0⟩, some ⟨0⟩, []⟩ else ⟨⟨a⟩, some ⟨r0⟩, ["Divide by 0!\n"]⟩) ∧
    BigInt.Div ⟨-1⟩ ⟨0⟩ (some ⟨7⟩) = ⟨⟨0⟩, some ⟨0⟩, []⟩ := by
  refine ⟨fun a r0 => ?_, by decide⟩
  rw [Div_cases]
  simp

/-- C6 (as stated, refuted): with receiver 3 and divisor -5 the magnitudes
satisfy `|3| < |-5|`, yet `Div` runs the general branch and leaves quotient -1
and remainder -2. -/
theorem Div_magnitude_counterexample :
    |(3 : ℤ)| < |(-5 : ℤ)| ∧
    BigInt.Div ⟨3⟩ ⟨-5⟩ (some ⟨7⟩) = ⟨⟨-1⟩, some ⟨-2⟩, []⟩ := by
  refine ⟨by decide, by decide⟩

/-- C6 (amended): for every receiver `a` and divisor `b` with `|a| < |b|`,
`Div (b, &r)` leaves receiver 0 and remainder 0 exactly when `b > 0` (then
`a < b` as signed integers) or `a = 0`. -/
theorem Div_magnitude_iff (a b r0 : ℤ) (hab : |a| < |b|) :
    ((BigInt.Div ⟨a⟩ ⟨b⟩ (some ⟨r0⟩)).receiver = ⟨0⟩ ∧
      (BigInt.Div ⟨a⟩ ⟨b⟩ (some ⟨r0⟩)).mod = some ⟨0⟩) ↔ (0 < b ∨ a = 0) := by
  rw [Div_cases]
  have hb : b ≠ 0 := by
    rintro rfl
    simp at hab
    exact absurd hab (not_lt.mpr (abs_nonneg a))
  have hne : a ≠ b := by
    rintro rfl
    exact lt_irrefl _ hab
  rcases lt_or_gt_of_ne hb with h | h
  · have hlt : b < a := by
      rw [abs_of_neg h] at hab
      have := neg_abs_le a
      omega
    have h1 : ¬ a < b := not_lt.mpr hlt.le
    simp only [h1, if_false, hb, hne, BigInt.mk.injEq, Option.some.injEq]
    constructor
    · rintro ⟨-, h3⟩
      right
      have e := fdiv_mul_add_fmod a b
      rw [h3, add_zero] at e
      have hdvd : |b| ∣ a := (abs_dvd b a).mpr ⟨Int.fdiv a b, by rw [mul_comm]; exact e⟩
      exact Int.eq_zero_of_abs_lt_dvd hdvd hab
    · rintro (h3 | h3)
      · omega
      · subst h3; simp
  · have hlt : a < b := by
      rw [abs_of_pos h] at hab
      have := le_abs_self a
      omega
    simp [hlt, h]

/-- Concrete instance: receiver 3, divisor 5. -/
theorem Div_magnitude_iff_witness :
    |(3 : ℤ)| < |(5 : ℤ)| ∧
    (((BigInt.Div ⟨3⟩ ⟨5⟩ (some ⟨7⟩)).receiver = ⟨0⟩ ∧
      (BigInt.Div ⟨3⟩ ⟨5⟩ (some ⟨7⟩)).mod = some ⟨0⟩) ↔ ((0 : ℤ) < 5 ∨ (3 : ℤ) = 0)) :=
  ⟨by decide, Div_magnitude_iff 3 5 7 (by decide)⟩

/-- C7: for every nonzero integer `a`, `Div (b, &r)` on a receiver holding `a`
with divisor `b = a` leaves the receiver at exactly 1 and the remainder at 0
(and prints nothing). -/
theorem Div_equal_operands (a r0 : ℤ) (ha : a ≠ 0) :
    BigInt.Div ⟨a⟩ ⟨a⟩ (some ⟨r0⟩) = ⟨⟨1⟩, some ⟨0⟩, []⟩ := by
  rw [Div_cases]
  simp [ha]

/-- Concrete instance: receiver and divisor -6. -/
theorem Div_equal_operands_witness :
    (-6 : ℤ) ≠ 0 ∧ BigInt.Div ⟨-6⟩ ⟨-6⟩ (some ⟨7⟩) = ⟨⟨1⟩, some ⟨0⟩, []⟩ :=
  ⟨by decide, Div_equal_operands (-6) 7 (by decide)⟩

/-- C8: for every receiver `a` and divisor `b` with `b ≠ 0` and `a > b`
(signed), `Div (b, &r)` leaves the receiver at the floor of the rational
quotient `a / b` and `r` at `a - floor (a / b) * b`; this remainder is zero or
has the sign of `b`, and `|r| < |b|`.  For receiver 5 and divisor 3 the
quotient is 1 and the remainder 2. -/
theorem Div_general_floor (a b r0 : ℤ) (hb : b ≠ 0) (hab : b < a) :
    (BigInt.Div ⟨a⟩ ⟨b⟩ (some ⟨r0⟩) =
        ⟨⟨⌊(a : ℚ) / (b : ℚ)⌋⟩, some ⟨a - ⌊(a : ℚ) / (b : ℚ)⌋ * b⟩, []⟩ ∧
      (a - ⌊(a : ℚ) / (b : ℚ)⌋ * b = 0 ∨
        Int.sign (a - ⌊(a : ℚ) / (b : ℚ)⌋ * b) = Int.sign b) ∧
      |a - ⌊(a : ℚ) / (b : ℚ)⌋ * b| < |b|) ∧
    BigInt.Div ⟨5⟩ ⟨3⟩ (some ⟨r0⟩) = ⟨⟨1⟩, some ⟨2⟩, []⟩ := by
  have hr : a - ⌊(a : ℚ) / (b : ℚ)⌋ * b = Int.fmod a b := by
    rw [← fdiv_eq_floor a hb, Int.fmod_def, mul_comm]
  refine ⟨⟨?_, ?_, ?_⟩, ?_⟩
  · rw [hr, ← fdiv_eq_floor a hb, Div_cases]
    have h1 : ¬ a < b := not_lt.mpr hab.le
    have h2 : a ≠ b := ne_of_gt hab
    simp [h1, h2, hb]
  · rw [hr]
    rcases lt_or_gt_of_ne hb with h | h
    · have hb2 := fmod_bounds_of_neg a h
      rcases eq_or_lt_of_le hb2.2 with h0 | h0
      · exact Or.inl h0
      · exact Or.inr (by rw [Int.sign_eq_neg_one_of_neg h0, Int.sign_eq_neg_one_of_neg h])
    · have hb2 := fmod_bounds_of_pos a h
      rcases eq_or_lt_of_le hb2.1 with h0 | h0
      · exact Or.inl h0.symm
      · exact Or.inr (by rw [Int.sign_eq_one_of_pos h0, Int.sign_eq_one_of_pos h])
  · rw [hr]
    exact fmod_abs_lt a hb
  · rw [Div_cases]
    have e1 : Int.fdiv 5 3 = 1 := by decide
    have e2 : Int.fmod 5 3 = 2 := by decide
    simp [e1, e2]

/-- Concrete instance: receiver -7, divisor -9. -/
theorem Div_general_floor_witness :
    (-9 : ℤ) ≠ 0 ∧ (-9 : ℤ) < -7 ∧
    ((BigInt.Div ⟨-7⟩ ⟨-9⟩ (some ⟨4⟩) =
        ⟨⟨⌊((-7 : ℤ) : ℚ) / ((-9 : ℤ) : ℚ)⌋⟩,
          some ⟨-7 - ⌊((-7 : ℤ) : ℚ) / ((-9 : ℤ) : ℚ)⌋ * (-9)⟩, []⟩ ∧
      (-7 - ⌊((-7 : ℤ) : ℚ) / ((-9 : ℤ) : ℚ)⌋ * (-9) = 0 ∨
        Int.sign (-7 - ⌊((-7 : ℤ) : ℚ) / ((-9 : ℤ) : ℚ)⌋ * (-9)) = Int.sign (-9)) ∧
      |-7 - ⌊((-7 : ℤ) : ℚ) / ((-9 : ℤ) : ℚ)⌋ * (-9)| < |(-9 : ℤ)|) ∧
    BigInt.Div ⟨5⟩ ⟨3⟩ (some ⟨4⟩) = ⟨⟨1⟩, some ⟨2⟩, []⟩) :=
  ⟨by decide, by decide, Div_general_floor (-7) (-9) 4 (by decide) (by decide)⟩

/-! ## Comparison -/

/-- C9: for all `a` and `b`, `IsGreater`, `IsEqual` and `IsLower` return
`a > b`, `a = b` and `a < b` on the signed values, and exactly one of the
three is true. -/
theorem comparisons_signed_trichotomy (a b : BigInt) :
    a.IsGreater b = decide (a.num > b.num) ∧
    a.IsEqual b = decide (a.num = b.num) ∧
    a.IsLower b = decide (a.num < b.num) ∧
    ((a.IsGreater b = true ∧ a.IsEqual b = false ∧ a.IsLower b = false) ∨
      (a.IsGreater b = false ∧ a.IsEqual b = true ∧ a.IsLower b = false) ∨
      (a.IsGreater b = false ∧ a.IsEqual b = false ∧ a.IsLower b = true)) := by
  have hg : a.IsGreater b = decide (a.num > b.num) := by
    simp only [BigInt.IsGreater, gt_iff_lt, mpz_cmp_pos_iff]
  have he : a.IsEqual b = decide (a.num = b.num) := by
    simp only [BigInt.IsEqual, mpz_cmp_zero_iff]
  have hl : a.IsLower b = decide (a.num < b.num) := by
    simp only [BigInt.IsLower, mpz_cmp_neg_iff]
  refine ⟨hg, he, hl, ?_⟩
  rw [hg, he, hl]
  rcases lt_trichotomy a.num b.num with h | h | h
  · right; right
    simp only [decide_eq_true_eq, decide_eq_false_iff_not]
    omega
  · right; left
    simp only [decide_eq_true_eq, decide_eq_false_iff_not]
    omega
  · left
    simp only [decide_eq_true_eq, decide_eq_false_iff_not]
    omega

/-! ## Bit access -/

theorem testBit_two_pow_self (k : Nat) : Int.testBit ((2 ^ k : Nat) : ℤ) k = true := by
  show Nat.testBit (2 ^ k) k = true
  exact Nat.testBit_two_pow_self

/-- C10: for every value `v` (of either sign) and every bit index `n`,
`GetBit (n)` returns 1 after `SetBit (n)` and 0 after `ClearBit (n)`. -/
theorem GetBit_after_SetBit_ClearBit (v : BigInt) (n : Nat) :
    (v.SetBit n).GetBit n = 1 ∧ (v.ClearBit n).GetBit n = 0 := by
  constructor
  · simp only [BigInt.GetBit, BigInt.SetBit, mpz_tstbit, mpz_setbit, Int.testBit_lor,
      testBit_two_pow_self, Bool.or_true, if_true]
  · simp only [BigInt.GetBit, BigInt.ClearBit, mpz_tstbit, mpz_clrbit, Int.testBit_ldiff,
      testBit_two_pow_self, Bool.not_true, Bool.and_false, Bool.false_eq_true, if_false]

/-! ## Fixed 32-byte import and export -/

theorem lt_two_pow_bitsAux (fuel m : Nat) (h : m ≤ fuel) : m < 2 ^ bitsAux fuel m := by
  induction fuel generalizing m with
  | zero =>
    have : m = 0 := by omega
    subst this
    simp [bitsAux]
  | succ f ih =>
    unfold bitsAux
    split_ifs with h0
    · subst h0; simp
    · have := ih (m / 2) (by omega)
      rw [pow_succ]
      omega

theorem bitsAux_le (fuel m k : Nat) (h : m < 2 ^ k) : bitsAux fuel m ≤ k := by
  induction fuel generalizing m k with
  | zero => simp [bitsAux]
  | succ f ih =>
    unfold bitsAux
    split_ifs with h0
    · omega
    · cases k with
      | zero => simp at h; omega
      | succ k =>
        have := ih (m / 2) k (by rw [pow_succ] at h; omega)
        omega

theorem bitsAux_pos (fuel m : Nat) (h : m ≤ fuel) (hm : m ≠ 0) : 0 < bitsAux fuel m := by
  cases fuel with
  | zero => omega
  | succ f => unfold bitsAux; simp [hm]

theorem wrapInt32_of_small (x : ℤ) (h0 : 0 ≤ x) (h1 : x < 2 ^ 31) : wrapInt32 x = x := by
  unfold wrapInt32 Int.bmod
  norm_num
  omega

theorem beBytes_length (k m : Nat) : (beBytes k m).length = k := by
  induction k generalizing m with
  | zero => rfl
  | succ k ih => simp [beBytes, ih]

theorem beBytes_zero (j : Nat) : beBytes j 0 = List.replicate j 0 := by
  induction j with
  | zero => rfl
  | succ j ih => simp [beBytes, ih, List.replicate_succ']

theorem beBytes_pad (n j m : Nat) (h : m < 256 ^ n) :
    beBytes (n + j) m = List.replicate j 0 ++ beBytes n m := by
  induction n generalizing m with
  | zero =>
    have : m = 0 := by simpa using h
    subst this
    simp [beBytes_zero, beBytes]
  | succ n ih =>
    have e : n + 1 + j = (n + j) + 1 := by omega
    rw [e]
    simp only [beBytes]
    rw [ih (m / 256) (by rw [pow_succ] at h; omega), List.append_assoc]

theorem beBytes_getElem? (k m i : Nat) (h : i < k) :
    (beBytes k m)[i]? = some (m / 256 ^ (k - 1 - i) % 256) := by
  induction k generalizing m with
  | zero => omega
  | succ k ih =>
    simp only [beBytes]
    by_cases hi : i < k
    · rw [List.getElem?_append_left (by rw [beBytes_length]; exact hi), ih (m / 256) hi]
      have e : k + 1 - 1 - i = (k - 1 - i) + 1 := by omega
      rw [e, pow_succ', Nat.div_div_eq_div_mul]
    · have e : i = k := by omega
      subst e
      rw [List.getElem?_append_right (by rw [beBytes_length])]
      simp [beBytes_length]

theorem beValue_snoc (l : List Nat) (x : Nat) : beValue (l ++ [x]) = beValue l * 256 + x := by
  simp [beValue, List.foldl_append]

theorem beValue_beBytes (k m : Nat) : beValue (beBytes k m) = m % 256 ^ k := by
  induction k generalizing m with
  | zero => simp [beBytes, beValue, Nat.mod_one]
  | succ k ih =>
    simp only [beBytes]
    rw [beValue_snoc, ih, pow_succ', Nat.mod_mul]
    ring

theorem beBytes_beValue (l : List Nat) (h : ∀ x ∈ l, x < 256) :
    beBytes l.length (beValue l) = l := by
  induction l using List.reverseRecOn with
  | nil => rfl
  | append_singleton l x ih =>
    have hx : x < 256 := h x (by simp)
    have hl : ∀ y ∈ l, y < 256 := fun y hy => h y (by simp [hy])
    rw [List.length_append, List.length_singleton, beValue_snoc]
    simp only [beBytes]
    have e1 : (beValue l * 256 + x) / 256 = beValue l := by omega
    have e2 : (beValue l * 256 + x) % 256 = x := by omega
    rw [e1, e2, ih hl]

theorem beValue_lt (l : List Nat) (h : ∀ x ∈ l, x < 256) : beValue l < 256 ^ l.length := by
  induction l using List.reverseRecOn with
  | nil => simp [beValue]
  | append_singleton l x ih =>
    have hx : x < 256 := h x (by simp)
    have hl : ∀ y ∈ l, y < 256 := fun y hy => h y (by simp [hy])
    have := ih hl
    rw [List.length_append, List.length_singleton, beValue_snoc, pow_succ]
    omega

/-- For a nonzero value below `2 ^ 256` in magnitude, `mpz_sizeinbase` is
between 1 and 256 and bounds the magnitude. -/
theorem sizeinbase2_bounds (v : ℤ) (hv : v ≠ 0) (h : v.natAbs < 2 ^ 256) :
    1 ≤ mpz_sizeinbase2 v ∧ mpz_sizeinbase2 v ≤ 256 ∧
      v.natAbs < 2 ^ mpz_sizeinbase2 v := by
  have hm : v.natAbs ≠ 0 := Int.natAbs_ne_zero.mpr hv
  simp only [mpz_sizeinbase2, hv, if_false]
  exact ⟨bitsAux_pos _ _ le_rfl hm, bitsAux_le _ _ _ h, lt_two_pow_bitsAux _ _ le_rfl⟩

/-- `GetSize` of a value below `2 ^ 256` in magnitude: the number of bytes
`mpz_export` writes, and 1 for zero. -/
theorem GetSize_eq (v : ℤ) (h : v.natAbs < 2 ^ 256) :
    BigInt.GetSize ⟨v⟩ = if v = 0 then 1 else ((mpz_export_count v : Nat) : ℤ) := by
  by_cases hv : v = 0
  · subst hv; decide
  · obtain ⟨h1, h2, -⟩ := sizeinbase2_bounds v hv h
    simp only [BigInt.GetSize, hv, if_false, mpz_export_count]
    have hw : wrapInt32 ((mpz_sizeinbase2 v : Nat) : ℤ) = (mpz_sizeinbase2 v : Nat) :=
      wrapInt32_of_small _ (by omega) (by norm_num; omega)
    rw [hw, wrapInt32_of_small _ (by omega) (by norm_num; omega),
      Int.tdiv_eq_ediv (by omega) (by norm_num)]
    omega

/-- `Get32Bytes` of a value below `2 ^ 256` in magnitude writes inside the
buffer and leaves the 32 base-256 digits of the magnitude, most significant
first. -/
theorem Get32Bytes_eq (v : ℤ) (h : v.natAbs < 2 ^ 256) :
    BigInt.Get32Bytes ⟨v⟩ = some (beBytes 32 v.natAbs) := by
  by_cases hv : v = 0
  · subst hv; decide
  · obtain ⟨h1, h2, h3⟩ := sizeinbase2_bounds v hv h
    have hn1 : 1 ≤ mpz_export_count v := by
      simp only [mpz_export_count, hv, if_false]; omega
    have hn2 : mpz_export_count v ≤ 32 := by
      simp only [mpz_export_count, hv, if_false]; omega
    have hlt : v.natAbs < 256 ^ mpz_export_count v := by
      have e : (256 : Nat) ^ mpz_export_count v = 2 ^ (8 * mpz_export_count v) := by
        rw [pow_mul]; norm_num
      rw [e]
      refine lt_of_lt_of_le h3 (Nat.pow_le_pow_right (by norm_num) ?_)
      simp only [mpz_export_count, hv, if_false]; omega
    have hpad := beBytes_pad (mpz_export_count v) (32 - mpz_export_count v) v.natAbs hlt
    have e32 : mpz_export_count v + (32 - mpz_export_count v) = 32 := by omega
    rw [e32] at hpad
    simp only [BigInt.Get32Bytes, GetSize_eq v h, hv, if_false, writeAt, mpz_export, memset32,
      beBytes_length, List.length_replicate]
    have hc : (0 : ℤ) ≤ 32 - (mpz_export_count v : ℤ) ∧
        (32 : ℤ) - (mpz_export_count v : ℤ) + (mpz_export_count v : ℤ) ≤ ((32 : Nat) : ℤ) := by
      constructor <;> push_cast <;> omega
    rw [if_pos hc, hpad]
    have et : ((32 : ℤ) - (mpz_export_count v : ℤ)).toNat = 32 - mpz_export_count v := by omega
    rw [et, List.take_replicate, List.drop_replicate]
    have e0 : 32 - (32 - mpz_export_count v + mpz_export_count v) = 0 := by omega
    have e1 : min (32 - mpz_export_count v) 32 = 32 - mpz_export_count v := by omega
    rw [e0, e1]
    simp

theorem beValue_eq_sum (l : List Nat) :
    beValue l = ∑ i ∈ Finset.range l.length, l.getD i 0 * 256 ^ (l.length - 1 - i) := by
  induction l using List.reverseRecOn with
  | nil => simp [beValue]
  | append_singleton l x ih =>
    rw [beValue_snoc, List.length_append, List.length_singleton, Finset.sum_range_succ, ih,
      Finset.sum_mul]
    congr 1
    · refine Finset.sum_congr rfl (fun i hi => ?_)
      have hi2 : i < l.length := Finset.mem_range.mp hi
      rw [List.getD_append _ _ _ _ hi2]
      have e : l.length + 1 - 1 - i = (l.length - 1 - i) + 1 := by omega
      rw [e, pow_succ, mul_assoc]
    · simp [List.getD_eq_getElem?_getD]

theorem import_beBytes (m : Nat) (h : m < 2 ^ 256) : mpz_import 32 (beBytes 32 m) = (m : ℤ) := by
  have hlen : (beBytes 32 m).length ≤ 32 := by rw [beBytes_length]
  have hlt : m < 256 ^ 32 := by
    have e : (256 : Nat) ^ 32 = 2 ^ 256 := by norm_num
    rw [e]; exact h
  simp only [mpz_import]
  rw [List.take_of_length_le hlen, beValue_beBytes, Nat.mod_eq_of_lt hlt]

theorem natAbs_lt_of_bounds (v : ℤ) (h0 : 0 ≤ v) (h1 : v < 2 ^ 256) : v.natAbs < 2 ^ 256 := by
  have h2 : (v.natAbs : ℤ) = v := Int.natAbs_of_nonneg h0
  have h3 : ((v.natAbs : Nat) : ℤ) < ((2 ^ 256 : Nat) : ℤ) := by rw [h2]; exact_mod_cast h1
  exact_mod_cast h3

/-- C3: for every integer `v` with `0 ≤ v < 2 ^ 256`, `Get32Bytes` succeeds and
`Set32Bytes` (on any receiver `w`) of the 32 bytes it produced yields a value
equal to `v`. -/
theorem Set32Bytes_Get32Bytes_roundtrip (w : BigInt) (v : ℤ) (h0 : 0 ≤ v) (h1 : v < 2 ^ 256) :
    (BigInt.Get32Bytes ⟨v⟩).map (BigInt.Set32Bytes w) = some ⟨v⟩ := by
  have hm := natAbs_lt_of_bounds v h0 h1
  rw [Get32Bytes_eq v hm]
  simp only [Option.map_some', BigInt.Set32Bytes, import_beBytes _ hm, Int.natAbs_of_nonneg h0]

/-- Concrete instance: the value `2 ^ 200 + 258`,
imported into a receiver that held -3. -/
theorem Set32Bytes_Get32Bytes_roundtrip_witness :
    (0 : ℤ) ≤ 2 ^ 200 + 258 ∧ (2 ^ 200 + 258 : ℤ) < 2 ^ 256 ∧
    (BigInt.Get32Bytes ⟨2 ^ 200 + 258⟩).map (BigInt.Set32Bytes ⟨-3⟩) = some ⟨2 ^ 200 + 258⟩ :=
  ⟨by norm_num, by norm_num,
    Set32Bytes_Get32Bytes_roundtrip ⟨-3⟩ (2 ^ 200 + 258) (by norm_num) (by norm_num)⟩

/-- C4: for every `v` with `0 ≤ v < 2 ^ 256`, `Get32Bytes` fills a 32-byte
buffer whose byte `i`, for every `i` in `[0, 32)`, is
`floor (v / 256 ^ (31 - i)) mod 256`; for `v = 2 ^ 128` byte 15 is 1 and every
other byte is 0. -/
theorem Get32Bytes_big_endian (v : ℤ) (h0 : 0 ≤ v) (h1 : v < 2 ^ 256) :
    (∃ buff, BigInt.Get32Bytes ⟨v⟩ = some buff ∧ buff.length = 32 ∧
      ∀ i : Nat, i < 32 → ∃ x : Nat, buff[i]? = some x ∧ (x : ℤ) = v / 256 ^ (31 - i) % 256) ∧
    BigInt.Get32Bytes ⟨2 ^ 128⟩ =
      some (List.replicate 15 0 ++ [1] ++ List.replicate 16 0) := by
  have hm := natAbs_lt_of_bounds v h0 h1
  refine ⟨⟨beBytes 32 v.natAbs, Get32Bytes_eq v hm, beBytes_length _ _, fun i hi => ?_⟩, ?_⟩
  · refine ⟨_, beBytes_getElem? 32 v.natAbs i hi, ?_⟩
    have e : 32 - 1 - i = 31 - i := by omega
    rw [e]
    push_cast
    rw [abs_of_nonneg h0]
  · have e : ((2 : ℤ) ^ 128).natAbs = 2 ^ 128 := by rw [Int.natAbs_pow]; rfl
    rw [Get32Bytes_eq (2 ^ 128) (by rw [e]; norm_num), e]
    decide

/-- Concrete instance: the value `2 ^ 255 + 7`. -/
theorem Get32Bytes_big_endian_witness :
    (0 : ℤ) ≤ 2 ^ 255 + 7 ∧ (2 ^ 255 + 7 : ℤ) < 2 ^ 256 ∧
    ((∃ buff, BigInt.Get32Bytes ⟨2 ^ 255 + 7⟩ = some buff ∧ buff.length = 32 ∧
      ∀ i : Nat, i < 32 → ∃ x : Nat, buff[i]? = some x ∧ (x : ℤ) = (2 ^ 255 + 7) / 256 ^ (31 - i) % 256) ∧
    BigInt.Get32Bytes ⟨2 ^ 128⟩ =
      some (List.replicate 15 0 ++ [1] ++ List.replicate 16 0)) :=
  ⟨by norm_num, by norm_num, Get32Bytes_big_endian (2 ^ 255 + 7) (by norm_num) (by norm_num)⟩

/-- C5: for every 32-byte buffer `b` and every previous receiver `w`,
`Set32Bytes` leaves the non-negative integer `∑ i < 32, b[i] * 256 ^ (31 - i)`
in the receiver, and a following `Get32Bytes` reproduces `b`. -/
theorem Set32Bytes_unsigned_big_endian (w : BigInt) (b : List Nat) (hb : IsBuffer32 b) :
    (w.Set32Bytes b).num = ∑ i ∈ Finset.range 32, (b.getD i 0 : ℤ) * 256 ^ (31 - i) ∧
    0 ≤ (w.Set32Bytes b).num ∧
    (w.Set32Bytes b).Get32Bytes = some b := by
  obtain ⟨hlen, hbytes⟩ := hb
  have htake : b.take 32 = b := List.take_of_length_le (by omega)
  have hnum : (w.Set32Bytes b).num = (beValue b : ℤ) := by
    simp only [BigInt.Set32Bytes, mpz_import, htake]
  have hlt : beValue b < 2 ^ 256 := by
    have := beValue_lt b hbytes
    rw [hlen] at this
    have e : (256 : Nat) ^ 32 = 2 ^ 256 := by norm_num
    rw [e] at this; exact this
  refine ⟨?_, ?_, ?_⟩
  · rw [hnum, beValue_eq_sum, hlen]
    push_cast
    rfl
  · rw [hnum]; exact Int.natCast_nonneg _
  · have e : w.Set32Bytes b = ⟨(beValue b : ℤ)⟩ := by
      simp only [BigInt.Set32Bytes, mpz_import, htake]
    rw [e, Get32Bytes_eq _ (by simpa using hlt), Int.natAbs_ofNat]
    have := beBytes_beValue b hbytes
    rw [hlen] at this
    rw [this]

/-- Concrete instance: the buffer whose last two
bytes are 1 and 2, imported into a receiver that held -3. -/
theorem Set32Bytes_unsigned_big_endian_witness :
    IsBuffer32 (List.replicate 30 0 ++ [1, 2]) ∧
    ((BigInt.Set32Bytes ⟨-3⟩ (List.replicate 30 0 ++ [1, 2])).num =
        ∑ i ∈ Finset.range 32,
          ((List.replicate 30 0 ++ [1, 2]).getD i 0 : ℤ) * 256 ^ (31 - i) ∧
      0 ≤ (BigInt.Set32Bytes ⟨-3⟩ (List.replicate 30 0 ++ [1, 2])).num ∧
      (BigInt.Set32Bytes ⟨-3⟩ (List.replicate 30 0 ++ [1, 2])).Get32Bytes =
        some (List.replicate 30 0 ++ [1, 2])) :=
  ⟨by decide, Set32Bytes_unsigned_big_endian ⟨-3⟩ (List.replicate 30 0 ++ [1, 2]) (by decide)⟩

/-! ## Sign and parity -/

/-- C17: for every integer `v`, `IsPositive` holds iff `v ≥ 0`, exactly one of
`IsPositive` and `IsNegative` holds, and exactly one of `IsEven` and `IsOdd`
holds, whatever the sign of `v`. -/
theorem sign_parity_partition (v : BigInt) :
    (v.IsPositive = true ↔ 0 ≤ v.num) ∧
    (v.IsPositive = !v.IsNegative) ∧
    (v.IsEven = !v.IsOdd) ∧
    (v.IsOdd = true ↔ v.num % 2 = 1) := by
  refine ⟨?_, ?_, ?_, ?_⟩
  · simp only [BigInt.IsPositive, mpz_cmp_ui, mpz_cmp, decide_eq_true_eq, Nat.cast_zero]
    split_ifs <;> omega
  · simp only [BigInt.IsPositive, BigInt.IsNegative, mpz_cmp_ui, mpz_cmp, Nat.cast_zero]
    split_ifs <;> simp
  · simp only [BigInt.IsEven, BigInt.IsOdd, mpz_even_p, mpz_odd_p]
    split_ifs <;> simp_all
  · simp only [BigInt.IsOdd, mpz_odd_p]
    split_ifs with h <;> simp [h]

/-! ## The first exit of `Div` -/

/-- C18: for every receiver `a` and divisor `b` with `a < b` as signed
integers, whatever their magnitudes and also for `b = 0`, `Div (b, &r)` leaves
receiver 0 and remainder 0 and prints nothing; for receiver 3 and divisor 5
both end at 0. -/
theorem Div_signed_fast_path (a b r0 : ℤ) (hab : a < b) :
    BigInt.Div ⟨a⟩ ⟨b⟩ (some ⟨r0⟩) = ⟨⟨0⟩, some ⟨0⟩, []⟩ ∧
    BigInt.Div ⟨3⟩ ⟨5⟩ (some ⟨r0⟩) = ⟨⟨0⟩, some ⟨0⟩, []⟩ := by
  constructor
  · rw [Div_cases, if_pos hab]
  · rw [Div_cases, if_pos (by decide)]

/-- Concrete instance: receiver -9 and divisor 0, where the magnitude of the
receiver is the larger one. -/
theorem Div_signed_fast_path_witness :
    (-9 : ℤ) < 0 ∧
    (BigInt.Div ⟨-9⟩ ⟨0⟩ (some ⟨4⟩) = ⟨⟨0⟩, some ⟨0⟩, []⟩ ∧
      BigInt.Div ⟨3⟩ ⟨5⟩ (some ⟨4⟩) = ⟨⟨0⟩, some ⟨0⟩, []⟩) :=
  ⟨by decide, Div_signed_fast_path (-9) 0 4 (by decide)⟩

/-! ## More on the 32-byte export -/

theorem natAbs_lt_of_abs_lt (v : ℤ) (h : |v| < 2 ^ 256) : v.natAbs < 2 ^ 256 := by
  have h3 : ((v.natAbs : Nat) : ℤ) < ((2 ^ 256 : Nat) : ℤ) := by
    rw [Int.natCast_natAbs]; exact_mod_cast h
  exact_mod_cast h3

/-- C19: for every `v` with `|v| < 2 ^ 256`, `GetSize` lies in `[1, 32]` (it is 1
for `v = 0`), the export offset `32 - GetSize` lies in `[0, 31]`, the number of
bytes `mpz_export` writes does not exceed `GetSize`, and `Get32Bytes` stays
inside its buffer. -/
theorem Get32Bytes_in_bounds (v : ℤ) (h : |v| < 2 ^ 256) :
    1 ≤ BigInt.GetSize ⟨v⟩ ∧ BigInt.GetSize ⟨v⟩ ≤ 32 ∧
    0 ≤ 32 - BigInt.GetSize ⟨v⟩ ∧ 32 - BigInt.GetSize ⟨v⟩ ≤ 31 ∧
    ((mpz_export v).length : ℤ) ≤ BigInt.GetSize ⟨v⟩ ∧
    BigInt.GetSize ⟨0⟩ = 1 ∧
    (BigInt.Get32Bytes ⟨v⟩).isSome = true := by
  have hm := natAbs_lt_of_abs_lt v h
  have hg := GetSize_eq v hm
  have hlen : (mpz_export v).length = mpz_export_count v := by
    simp only [mpz_export, beBytes_length]
  have h0 : BigInt.GetSize ⟨0⟩ = 1 := by decide
  have hs : (BigInt.Get32Bytes ⟨v⟩).isSome = true := by rw [Get32Bytes_eq v hm]; rfl
  by_cases hv : v = 0
  · subst hv
    rw [hlen, h0]
    simp [mpz_export_count, hs]
  · obtain ⟨h1, h2, -⟩ := sizeinbase2_bounds v hv hm
    rw [hlen, hg, if_neg hv]
    have e : mpz_export_count v = (mpz_sizeinbase2 v + 7) / 8 := by
      simp only [mpz_export_count, hv, if_false]
    refine ⟨?_, ?_, ?_, ?_, le_rfl, h0, hs⟩ <;> omega

/-- Concrete instance: the value `-(2 ^ 255)`. -/
theorem Get32Bytes_in_bounds_witness :
    |(-(2 ^ 255) : ℤ)| < 2 ^ 256 ∧
    (1 ≤ BigInt.GetSize ⟨-(2 ^ 255)⟩ ∧ BigInt.GetSize ⟨-(2 ^ 255)⟩ ≤ 32 ∧
    0 ≤ 32 - BigInt.GetSize ⟨-(2 ^ 255)⟩ ∧ 32 - BigInt.GetSize ⟨-(2 ^ 255)⟩ ≤ 31 ∧
    ((mpz_export (-(2 ^ 255))).length : ℤ) ≤ BigInt.GetSize ⟨-(2 ^ 255)⟩ ∧
    BigInt.GetSize ⟨0⟩ = 1 ∧
    (BigInt.Get32Bytes ⟨-(2 ^ 255)⟩).isSome = true) :=
  ⟨by norm_num, Get32Bytes_in_bounds (-(2 ^ 255)) (by norm_num)⟩

/-- C20: for every `v` with `|v| < 2 ^ 256`, `Get32Bytes` of `-v` produces the
same 32 bytes as `Get32Bytes` of `v`; so for negative `v`, `Get32Bytes`
followed by `Set32Bytes` (on any receiver `w`) yields `|v|`, which is not
`v`. -/
theorem Get32Bytes_drops_sign (w : BigInt) (v : ℤ) (h : |v| < 2 ^ 256) :
    BigInt.Get32Bytes ⟨-v⟩ = BigInt.Get32Bytes ⟨v⟩ ∧
    (v < 0 → (BigInt.Get32Bytes ⟨v⟩).map (BigInt.Set32Bytes w) = some ⟨|v|⟩ ∧
      (⟨|v|⟩ : BigInt) ≠ ⟨v⟩) := by
  have hm := natAbs_lt_of_abs_lt v h
  have hm2 : (-v).natAbs < 2 ^ 256 := by rw [Int.natAbs_neg]; exact hm
  refine ⟨?_, fun hv => ⟨?_, ?_⟩⟩
  · rw [Get32Bytes_eq v hm, Get32Bytes_eq (-v) hm2, Int.natAbs_neg]
  · rw [Get32Bytes_eq v hm]
    simp only [Option.map_some', BigInt.Set32Bytes, import_beBytes _ hm, Int.natCast_natAbs]
  · intro e
    have e2 : |v| = v := by simpa using e
    have := abs_nonneg v
    omega

/-- Concrete instance: the value -258, imported back into a receiver that
held 7. -/
theorem Get32Bytes_drops_sign_witness :
    |(-258 : ℤ)| < 2 ^ 256 ∧
    (BigInt.Get32Bytes ⟨-(-258)⟩ = BigInt.Get32Bytes ⟨-258⟩ ∧
    ((-258 : ℤ) < 0 →
      (BigInt.Get32Bytes ⟨-258⟩).map (BigInt.Set32Bytes ⟨7⟩) = some ⟨|(-258 : ℤ)|⟩ ∧
      (⟨|(-258 : ℤ)|⟩ : BigInt) ≠ ⟨-258⟩)) :=
  ⟨by norm_num, Get32Bytes_drops_sign ⟨7⟩ (-258) (by norm_num)⟩

/-- C12: for every `v` with `0 ≤ v < 2 ^ 256`, `GetByte (n)` returns byte `n` of
the `Get32Bytes` output, which is `floor (v / 256 ^ (31 - n)) mod 256` with
`n = 0` the most significant byte, when `0 ≤ n < 32`, and returns 0 for every
`n < 0` and every `n ≥ 32`. -/
theorem GetByte_indexes_big_endian (v : ℤ) (h0 : 0 ≤ v) (h1 : v < 2 ^ 256) (n : ℤ) :
    (0 ≤ n ∧ n < 32 →
      ∃ buff x, BigInt.Get32Bytes ⟨v⟩ = some buff ∧ buff[n.toNat]? = some x ∧
        BigInt.GetByte ⟨v⟩ n = some x ∧ (x : ℤ) = v / 256 ^ (31 - n.toNat) % 256) ∧
    (n < 0 ∨ 32 ≤ n → BigInt.GetByte ⟨v⟩ n = some 0) := by
  have hm := natAbs_lt_of_bounds v h0 h1
  have hg := Get32Bytes_eq v hm
  have hgb : BigInt.GetByte ⟨v⟩ n =
      some (if n ≥ 0 ∧ n < 32 then (beBytes 32 v.natAbs).getD n.toNat 0 else 0) := by
    unfold BigInt.GetByte
    rw [hg, Option.map_some']
  constructor
  · rintro ⟨hn0, hn1⟩
    have hi : n.toNat < 32 := by omega
    have hx := beBytes_getElem? 32 v.natAbs n.toNat hi
    refine ⟨_, _, hg, hx, ?_, ?_⟩
    · rw [hgb, if_pos ⟨hn0, hn1⟩, List.getD_eq_getElem?_getD, hx, Option.getD_some]
    · have e : 32 - 1 - n.toNat = 31 - n.toNat := by omega
      rw [e]
      push_cast
      rw [abs_of_nonneg h0]
  · intro hn
    have hc : ¬ (n ≥ 0 ∧ n < 32) := by omega
    rw [hgb, if_neg hc]

/-- Concrete instance: the value 258 and index 30, the byte that holds 1. -/
theorem GetByte_indexes_big_endian_witness :
    (0 : ℤ) ≤ 258 ∧ (258 : ℤ) < 2 ^ 256 ∧
    ((0 ≤ (30 : ℤ) ∧ (30 : ℤ) < 32 →
      ∃ buff x, BigInt.Get32Bytes ⟨258⟩ = some buff ∧ buff[(30 : ℤ).toNat]? = some x ∧
        BigInt.GetByte ⟨258⟩ 30 = some x ∧
        (x : ℤ) = 258 / 256 ^ (31 - (30 : ℤ).toNat) % 256) ∧
    ((30 : ℤ) < 0 ∨ 32 ≤ (30 : ℤ) → BigInt.GetByte ⟨258⟩ 30 = some 0)) :=
  ⟨by norm_num, by norm_num, GetByte_indexes_big_endian 258 (by norm_num) (by norm_num) 30⟩

/-! ## Bit length -/

theorem abs_lt_two_pow_iff (v : ℤ) (j : Nat) : |v| < 2 ^ j ↔ v.natAbs < 2 ^ j := by
  rw [Int.abs_eq_natAbs]
  constructor
  · intro h; exact_mod_cast h
  · intro h; exact_mod_cast h

/-- For nonzero `op`, `mpz_sizeinbase (op, 2)` is the least `s` with
`|op| < 2 ^ s`. -/
theorem sizeinbase2_least (v : ℤ) (hv : v ≠ 0) :
    v.natAbs < 2 ^ mpz_sizeinbase2 v ∧ ∀ j : Nat, v.natAbs < 2 ^ j → mpz_sizeinbase2 v ≤ j := by
  simp only [mpz_sizeinbase2, hv, if_false]
  exact ⟨lt_two_pow_bitsAux _ _ le_rfl, fun j hj => bitsAux_le _ _ _ hj⟩

theorem sizeinbase2_mul_two_pow (v : ℤ) (n : Nat) (hv : v ≠ 0) :
    mpz_sizeinbase2 (v * 2 ^ n) = mpz_sizeinbase2 v + n := by
  have hv2 : v * 2 ^ n ≠ 0 := mul_ne_zero hv (pow_ne_zero _ (by norm_num))
  obtain ⟨h1, h2⟩ := sizeinbase2_least v hv
  obtain ⟨h3, h4⟩ := sizeinbase2_least (v * 2 ^ n) hv2
  have hab : (v * 2 ^ n).natAbs = v.natAbs * 2 ^ n := by
    rw [Int.natAbs_mul, Int.natAbs_pow]; rfl
  rw [hab] at h3 h4
  have hpos : 0 < v.natAbs := Int.natAbs_pos.mpr hv
  have hp : 0 < 2 ^ n := Nat.pos_pow_of_pos n (by norm_num)
  apply le_antisymm
  · apply h4
    rw [pow_add]
    exact Nat.mul_lt_mul_of_pos_right h1 hp
  · have hlt : 2 ^ n < 2 ^ mpz_sizeinbase2 (v * 2 ^ n) :=
      lt_of_le_of_lt (Nat.le_mul_of_pos_left _ hpos) h3
    have hn : n < mpz_sizeinbase2 (v * 2 ^ n) := (Nat.pow_lt_pow_iff_right (by norm_num)).mp hlt
    obtain ⟨j, hj⟩ := Nat.exists_eq_add_of_le hn.le
    rw [hj] at h3 ⊢
    rw [pow_add, mul_comm (2 ^ n) (2 ^ j)] at h3
    have := h2 j (Nat.lt_of_mul_lt_mul_right h3)
    omega

theorem ceil_div_eight (x : ℤ) : ⌈(x : ℚ) / 8⌉ = (x + 7) / 8 := by
  rw [Int.ceil_eq_iff]
  have h1 : 8 * ((x + 7) / 8) - 8 < x := by omega
  have h2 : x ≤ 8 * ((x + 7) / 8) := by omega
  have h1q : (8 : ℚ) * (((x + 7) / 8 : ℤ) : ℚ) - 8 < (x : ℚ) := by exact_mod_cast h1
  have h2q : (x : ℚ) ≤ 8 * (((x + 7) / 8 : ℤ) : ℚ) := by exact_mod_cast h2
  constructor
  · rw [lt_div_iff₀ (by norm_num)]; linarith
  · rw [div_le_iff₀ (by norm_num)]; linarith

theorem GetBitLength_eq (v : ℤ) (h : mpz_sizeinbase2 v < 2 ^ 31) :
    BigInt.GetBitLength ⟨v⟩ = (mpz_sizeinbase2 v : ℤ) := by
  unfold BigInt.GetBitLength
  exact wrapInt32_of_small _ (by omega) (by exact_mod_cast h)

/-- C11 (as stated, refuted): for `v = 0` `GetBitLength` returns 1, while the
least `k` with `|0| < 2 ^ k` is 0. -/
theorem GetBitLength_zero_counterexample :
    BigInt.GetBitLength ⟨0⟩ = 1 ∧ IsBitWidth 0 0 ∧ ¬ IsBitWidth 0 (BigInt.GetBitLength ⟨0⟩) := by
  have h1 : BigInt.GetBitLength ⟨0⟩ = 1 := by decide
  refine ⟨h1, ⟨0, by simp, by simp, fun j _ => Nat.zero_le j⟩, ?_⟩
  rw [h1]
  rintro ⟨n, hn, -, hmin⟩
  have hn1 : n = 1 := by omega
  have := hmin 0 (by simp)
  omega

/-- C11 (amended): for every nonzero integer `v` of magnitude below
`2 ^ (2 ^ 31 - 8)`, `GetBitLength` returns the least `k ≥ 0` with `|v| < 2 ^ k`
(129 for `v = 2 ^ 128`); for `v = 0` it returns 1; and for every `v` below that
bound, zero included, `GetSize` returns `ceil (GetBitLength / 8)`. -/
theorem GetBitLength_bit_width (v : ℤ) (k : Nat) (hk : k ≤ 2 ^ 31 - 8) (hvk : |v| < 2 ^ k) :
    (v ≠ 0 → IsBitWidth v (BigInt.GetBitLength ⟨v⟩)) ∧
    BigInt.GetSize ⟨v⟩ = ⌈(BigInt.GetBitLength ⟨v⟩ : ℚ) / 8⌉ ∧
    BigInt.GetBitLength ⟨2 ^ 128⟩ = 129 ∧
    BigInt.GetBitLength ⟨0⟩ = 1 := by
  have hs : mpz_sizeinbase2 v ≤ 2 ^ 31 - 8 := by
    by_cases hv : v = 0
    · subst hv; simp [mpz_sizeinbase2]
    · exact le_trans ((sizeinbase2_least v hv).2 k ((abs_lt_two_pow_iff v k).mp hvk)) hk
  have hs2 : mpz_sizeinbase2 v < 2 ^ 31 := by omega
  have hbl := GetBitLength_eq v hs2
  refine ⟨fun hv => ?_, ?_, ?_, by decide⟩
  · obtain ⟨h1, h2⟩ := sizeinbase2_least v hv
    exact ⟨mpz_sizeinbase2 v, hbl, (abs_lt_two_pow_iff v _).mpr h1,
      fun j hj => h2 j ((abs_lt_two_pow_iff v j).mp hj)⟩
  · rw [ceil_div_eight, hbl]
    unfold BigInt.GetSize
    simp only []
    have hw : wrapInt32 ((mpz_sizeinbase2 v : Nat) : ℤ) = (mpz_sizeinbase2 v : Nat) :=
      wrapInt32_of_small _ (by omega) (by norm_num; omega)
    rw [hw, wrapInt32_of_small _ (by omega) (by norm_num; omega),
      Int.tdiv_eq_ediv (by omega) (by norm_num)]
  · have e : ((2 : ℤ) ^ 128) = 1 * 2 ^ 128 := by ring
    have hsz : mpz_sizeinbase2 (2 ^ 128) = 129 := by
      rw [e, sizeinbase2_mul_two_pow 1 128 (by norm_num)]
      decide
    rw [GetBitLength_eq _ (by rw [hsz]; norm_num), hsz]
    rfl

/-- Concrete instance: the value `-(2 ^ 128)`, of magnitude below `2 ^ 129`. -/
theorem GetBitLength_bit_width_witness :
    129 ≤ 2 ^ 31 - 8 ∧ |(-(2 ^ 128) : ℤ)| < 2 ^ 129 ∧
    ((-(2 ^ 128) : ℤ) ≠ 0 → IsBitWidth (-(2 ^ 128)) (BigInt.GetBitLength ⟨-(2 ^ 128)⟩)) ∧
    BigInt.GetSize ⟨-(2 ^ 128)⟩ = ⌈(BigInt.GetBitLength ⟨-(2 ^ 128)⟩ : ℚ) / 8⌉ ∧
    BigInt.GetBitLength ⟨2 ^ 128⟩ = 129 ∧
    BigInt.GetBitLength ⟨0⟩ = 1 :=
  ⟨by norm_num, by norm_num,
    GetBitLength_bit_width (-(2 ^ 128)) 129 (by norm_num) (by norm_num)⟩

/-! ## Left shift -/

theorem toUInt32_of_lt (n : Nat) (hn : n < 2 ^ 32) : toUInt32 n = n :=
  Nat.mod_eq_of_lt hn

/-- C16 (as stated, refuted): shifting the value 1 left by `2 ^ 31 - 1` bits
gives a value of bit-width `2 ^ 31`, which `GetBitLength` returns as the
`int` `-(2 ^ 31)`, whereas the bit length before the shift plus the shift count
is `2 ^ 31`. -/
theorem ShiftL_bit_length_counterexample :
    2 ^ 31 - 1 < 2 ^ 32 ∧
    BigInt.GetBitLength (BigInt.ShiftL ⟨1⟩ (2 ^ 31 - 1)) = -(2 ^ 31) ∧
    BigInt.GetBitLength ⟨1⟩ + ((2 ^ 31 - 1 : Nat) : ℤ) = 2 ^ 31 := by
  refine ⟨by norm_num, ?_, ?_⟩
  · have ht : toUInt32 (2 ^ 31 - 1) = 2 ^ 31 - 1 := toUInt32_of_lt _ (by norm_num)
    have hs1 : mpz_sizeinbase2 1 = 1 := by decide
    unfold BigInt.GetBitLength BigInt.ShiftL mpz_mul_2exp
    simp only []
    rw [ht, sizeinbase2_mul_two_pow 1 _ (by norm_num), hs1]
    unfold wrapInt32 Int.bmod
    norm_num
  · have h1 : BigInt.GetBitLength ⟨1⟩ = 1 := by decide
    rw [h1]
    norm_num

/-- C16 (amended): for every integer `v` of either sign and every `n` in the
`uint32` range, `ShiftL (n)` leaves the receiver equal to `v * 2 ^ n`; for
`v ≠ 0` the bit-width of the magnitude grows by exactly `n`, and `GetBitLength`,
which returns it as an `int`, grows by exactly `n` whenever the new bit-width
is below `2 ^ 31`. -/
theorem ShiftL_exact (v : ℤ) (n : Nat) (hn : n < 2 ^ 32) :
    (BigInt.ShiftL ⟨v⟩ n).num = v * 2 ^ n ∧
    (v ≠ 0 → mpz_sizeinbase2 (BigInt.ShiftL ⟨v⟩ n).num = mpz_sizeinbase2 v + n) ∧
    (v ≠ 0 → mpz_sizeinbase2 v + n < 2 ^ 31 →
      BigInt.GetBitLength (BigInt.ShiftL ⟨v⟩ n) = BigInt.GetBitLength ⟨v⟩ + n) := by
  have hval : (BigInt.ShiftL ⟨v⟩ n).num = v * 2 ^ n := by
    simp only [BigInt.ShiftL, mpz_mul_2exp, toUInt32_of_lt n hn]
  have hsh : BigInt.ShiftL ⟨v⟩ n = ⟨v * 2 ^ n⟩ := by
    simp only [BigInt.ShiftL, mpz_mul_2exp, toUInt32_of_lt n hn]
  refine ⟨hval, fun hv => ?_, fun hv hb => ?_⟩
  · rw [hval, sizeinbase2_mul_two_pow v n hv]
  · have hsz := sizeinbase2_mul_two_pow v n hv
    rw [hsh, GetBitLength_eq _ (by rw [hsz]; exact hb), GetBitLength_eq v (by omega), hsz]
    push_cast
    rfl

/-- Concrete instance: the value -5 shifted left by 200 bits. -/
theorem ShiftL_exact_witness :
    200 < 2 ^ 32 ∧
    ((BigInt.ShiftL ⟨-5⟩ 200).num = -5 * 2 ^ 200 ∧
    ((-5 : ℤ) ≠ 0 → mpz_sizeinbase2 (BigInt.ShiftL ⟨-5⟩ 200).num = mpz_sizeinbase2 (-5) + 200) ∧
    ((-5 : ℤ) ≠ 0 → mpz_sizeinbase2 (-5) + 200 < 2 ^ 31 →
      BigInt.GetBitLength (BigInt.ShiftL ⟨-5⟩ 200) = BigInt.GetBitLength ⟨-5⟩ + (200 : Nat))) :=
  ⟨by norm_num, ShiftL_exact (-5) 200 (by norm_num)⟩

/-! ## Text conversion: digits -/

theorem digitChar_facts : ∀ d, d < 36 →
    digit_value (digitChar d) = d ∧ isspace (digitChar d) = false ∧
    digitChar d ≠ NUL ∧ digitChar d ≠ '-' ∧ (digitChar d = '0' → d = 0) := by
  decide

theorem digitCount_zero (b fuel : Nat) : digitCount b fuel 0 = 0 := by
  cases fuel <;> simp [digitCount]

theorem digitCount_pos (b fuel m : Nat) (h : m ≤ fuel) (hm : m ≠ 0) :
    0 < digitCount b fuel m := by
  cases fuel with
  | zero => omega
  | succ f => unfold digitCount; simp [hm]

theorem lt_pow_digitCount (b fuel m : Nat) (hb : 1 < b) (h : m ≤ fuel) :
    m < b ^ digitCount b fuel m := by
  induction fuel generalizing m with
  | zero =>
    have : m = 0 := by omega
    subst this
    simp [digitCount]
  | succ f ih =>
    unfold digitCount
    split_ifs with h0
    · subst h0; simp
    · have hdiv : m / b ≤ f := by
        have : m / b < m := Nat.div_lt_self (by omega) hb
        omega
      have := ih (m / b) hdiv
      rw [pow_succ]
      exact Nat.lt_mul_of_div_lt this (by omega)

theorem digitCount_le (b fuel m k : Nat) (h : m < b ^ k) :
    digitCount b fuel m ≤ k := by
  induction fuel generalizing m k with
  | zero => simp [digitCount]
  | succ f ih =>
    unfold digitCount
    split_ifs with h0
    · omega
    · cases k with
      | zero => simp at h; omega
      | succ k =>
        have hlt : m / b < b ^ k := by
          rw [pow_succ, mul_comm] at h
          exact Nat.div_lt_of_lt_mul h
        have := ih (m / b) k hlt
        omega

theorem pow_digitCount_pred_le (b fuel m : Nat) (hb : 1 < b) (h : m ≤ fuel) (hm : m ≠ 0) :
    b ^ (digitCount b fuel m - 1) ≤ m := by
  induction fuel generalizing m with
  | zero => omega
  | succ f ih =>
    unfold digitCount
    rw [if_neg hm, Nat.add_sub_cancel]
    by_cases hq : m / b = 0
    · rw [hq, digitCount_zero]
      simp
      omega
    · have hdiv : m / b ≤ f := by
        have : m / b < m := Nat.div_lt_self (by omega) hb
        omega
      have h1 := ih (m / b) hdiv hq
      have h2 := digitCount_pos b f (m / b) hdiv hq
      have e : digitCount b f (m / b) = (digitCount b f (m / b) - 1) + 1 := by omega
      rw [e, pow_succ]
      calc b ^ (digitCount b f (m / b) - 1) * b ≤ m / b * b := Nat.mul_le_mul_right b h1
        _ ≤ m := Nat.div_mul_le_self m b

theorem beDigits_length (b k m : Nat) : (beDigits b k m).length = k := by
  induction k generalizing m with
  | zero => rfl
  | succ k ih => simp [beDigits, ih]

theorem beDigits_lt (b k m : Nat) (hb : 0 < b) : ∀ d ∈ beDigits b k m, d < b := by
  induction k generalizing m with
  | zero => simp [beDigits]
  | succ k ih =>
    intro d hd
    simp only [beDigits, List.mem_append, List.mem_singleton] at hd
    rcases hd with hd | hd
    · exact ih _ d hd
    · rw [hd]; exact Nat.mod_lt m hb

theorem beDigits_getElem? (b k m i : Nat) (h : i < k) :
    (beDigits b k m)[i]? = some (m / b ^ (k - 1 - i) % b) := by
  induction k generalizing m with
  | zero => omega
  | succ k ih =>
    simp only [beDigits]
    by_cases hi : i < k
    · rw [List.getElem?_append_left (by rw [beDigits_length]; exact hi), ih (m / b) hi]
      have e : k + 1 - 1 - i = (k - 1 - i) + 1 := by omega
      rw [e, pow_succ', Nat.div_div_eq_div_mul]
    · have e : i = k := by omega
      subst e
      rw [List.getElem?_append_right (by rw [beDigits_length])]
      simp [beDigits_length]

theorem numeralValue_snoc (b : Nat) (l : List Char) (c : Char) :
    numeralValue b (l ++ [c]) = numeralValue b l * b + digit_value c := by
  simp [numeralValue, List.foldl_append]

theorem numeralValue_digits (b k m : Nat) (hb0 : 0 < b) (hb : b ≤ 36) :
    numeralValue b ((beDigits b k m).map digitChar) = m % b ^ k := by
  induction k generalizing m with
  | zero => simp [beDigits, numeralValue, Nat.mod_one]
  | succ k ih =>
    have hd : digit_value (digitChar (m % b)) = m % b :=
      (digitChar_facts (m % b) (lt_of_lt_of_le (Nat.mod_lt m hb0) hb)).1
    simp only [beDigits, List.map_append, List.map_cons, List.map_nil]
    rw [numeralValue_snoc, ih, hd, pow_succ', Nat.mod_mul]
    ring

/-- The digit text of a nonzero magnitude: it is not empty, its first digit is
not zero, every character is a digit of the base, and its value is the
magnitude. -/
theorem digitText_facts (b m : Nat) (hb : 1 < b) (hb36 : b ≤ 36) (hm : m ≠ 0) :
    ∃ d0 rest, (beDigits b (digitCount b m m) m).map digitChar = digitChar d0 :: rest ∧
      d0 ≠ 0 ∧ d0 < b ∧
      (∀ c ∈ digitChar d0 :: rest, digit_value c < b ∧ isspace c = false ∧ c ≠ NUL ∧ c ≠ '-') ∧
      numeralValue b (digitChar d0 :: rest) = m := by
  have hk := digitCount_pos b m m le_rfl hm
  have hlt := lt_pow_digitCount b m m hb le_rfl
  have hle := pow_digitCount_pred_le b m m hb le_rfl hm
  have hval := numeralValue_digits b (digitCount b m m) m (by omega) hb36
  rw [Nat.mod_eq_of_lt hlt] at hval
  have h0 := beDigits_getElem? b (digitCount b m m) m 0 hk
  have hmem := beDigits_lt b (digitCount b m m) m (by omega)
  generalize digitCount b m m = k at *
  have hq1 : 0 < m / b ^ (k - 1) := Nat.div_pos hle (Nat.pos_pow_of_pos _ (by omega))
  have hq2 : m / b ^ (k - 1) < b := by
    apply Nat.div_lt_of_lt_mul
    have e : k = (k - 1) + 1 := by omega
    rw [e, pow_succ] at hlt
    simpa using hlt
  cases hl : beDigits b k m with
  | nil => rw [hl] at h0; simp at h0
  | cons d0 ds =>
    rw [hl] at h0 hval hmem
    simp only [Nat.sub_zero, List.getElem?_cons_zero, Option.some.injEq] at h0
    rw [Nat.mod_eq_of_lt hq2] at h0
    refine ⟨d0, ds.map digitChar, by simp, by omega, by omega, ?_, by simpa using hval⟩
    intro c hc
    have hc2 : c ∈ (d0 :: ds).map digitChar := by simpa using hc
    obtain ⟨d, hd, rfl⟩ := List.mem_map.mp hc2
    have hdb := hmem d hd
    have hf := digitChar_facts d (by omega)
    exact ⟨by rw [hf.1]; exact hdb, hf.2.1, hf.2.2.1, hf.2.2.2.1⟩

/-! ## Text conversion: the parser on text without white space -/

/-- A text without white space and without NUL. -/
theorem cString_of_clean (s : List Char) (h : ∀ c ∈ s, c ≠ NUL) : cString s = s := by
  unfold cString
  rw [List.takeWhile_eq_self_iff]
  intro c hc
  simpa using h c hc

theorem dropWhile_isspace_of_clean (s : List Char) (h : ∀ c ∈ s, isspace c = false) :
    s.dropWhile isspace = s := by
  cases s with
  | nil => rfl
  | cons c t => rw [List.dropWhile_cons, h c (by simp)]; simp

theorem numeralValue_cons_zero (b : Nat) (c : Char) (t : List Char) (hc : digit_value c = 0) :
    numeralValue b (c :: t) = numeralValue b t := by
  simp [numeralValue, hc]

theorem convertDigits_clean (b : Nat) (s : List Char) (hb : 0 < b)
    (h : ∀ c ∈ s, isspace c = false) :
    convertDigits b s =
      if s.all (fun c => digit_value c < b) = true then some (numeralValue b s) else none := by
  induction s with
  | nil => simp [convertDigits, numeralValue]
  | cons c t ih =>
    have hc : isspace c = false := h c (by simp)
    have ht : ∀ x ∈ t, isspace x = false := fun x hx => h x (by simp [hx])
    by_cases h0 : c = '0'
    · have hv : digit_value c = 0 := by rw [h0]; decide
      have e : convertDigits b (c :: t) = convertDigits b t := by
        simp [convertDigits, List.dropWhile_cons, h0]
      rw [e, ih ht, numeralValue_cons_zero b c t hv]
      simp [hv, hb]
    · have hf : (c :: t).filter (fun c => !isspace c) = c :: t := by
        rw [List.filter_eq_self]
        intro x hx
        simp [h x hx]
      simp only [convertDigits, List.dropWhile_cons, h0, hc, decide_False, Bool.or_self,
        Bool.false_eq_true, if_false, hf]
      simp

theorem numeralOrZero_eq (b : Nat) (ds : List Char) :
    ((if ds.all (fun c => digit_value c < b) = true then some (numeralValue b ds) else none).map
      (fun x : Nat => (x : ℤ))).getD 0 = numeralOrZero b ds := by
  unfold numeralOrZero
  split_ifs <;> simp

theorem headC_cons (c : Char) (t : List Char) : headC (c :: t) = c := rfl

/-- The unsigned part of `mpz_set_str` with base 0 on text without white
space, against the specification's reading with the binary prefix. -/
theorem unsigned_parse_eq_read (r : List Char) (h : ∀ c ∈ r, isspace c = false) :
    ((if digit_value (headC r) ≥ 10 then none
      else convertDigits (detectBase r).1 (detectBase r).2).map
        (fun x : Nat => (x : ℤ))).getD 0 = readUnsigned true r := by
  cases r with
  | nil => decide
  | cons c t =>
    have ht : ∀ x ∈ t, isspace x = false := fun x hx => h x (by simp [hx])
    by_cases h0 : c = '0'
    · subst h0
      have hd : ¬ digit_value (headC ('0' :: t)) ≥ 10 := by rw [headC_cons]; decide
      rw [if_neg hd]
      cases t with
      | nil => decide
      | cons c2 t2 =>
        have ht2 : ∀ x ∈ t2, isspace x = false := fun x hx => ht x (by simp [hx])
        by_cases hx : c2 = 'x' ∨ c2 = 'X'
        · have e1 : detectBase ('0' :: c2 :: t2) = (16, t2) := by
            simp [detectBase, headC_cons, hx]
          have e2 : readUnsigned true ('0' :: c2 :: t2) = numeralOrZero 16 t2 := by
            rcases hx with hx | hx <;> simp [readUnsigned, hx]
          rw [e1, e2, convertDigits_clean 16 t2 (by norm_num) ht2, numeralOrZero_eq]
        · by_cases hbn : c2 = 'b' ∨ c2 = 'B'
          · have e1 : detectBase ('0' :: c2 :: t2) = (2, t2) := by
              simp [detectBase, headC_cons, hx, hbn]
            have e2 : readUnsigned true ('0' :: c2 :: t2) = numeralOrZero 2 t2 := by
              rcases hbn with hbn | hbn <;> simp [readUnsigned, hbn]
            rw [e1, e2, convertDigits_clean 2 t2 (by norm_num) ht2, numeralOrZero_eq]
          · have e1 : detectBase ('0' :: c2 :: t2) = (8, c2 :: t2) := by
              simp [detectBase, headC_cons, hx, hbn]
            have e2 : readUnsigned true ('0' :: c2 :: t2) = numeralOrZero 8 (c2 :: t2) := by
              push_neg at hx hbn
              simp [readUnsigned, hx.1.symm, hx.2.symm, hbn.1.symm, hbn.2.symm]
            rw [e1, e2, convertDigits_clean 8 (c2 :: t2) (by norm_num) ht, numeralOrZero_eq]
    · have e1 : detectBase (c :: t) = (10, c :: t) := by
        simp [detectBase, headC_cons, h0]
      have e2 : readUnsigned true (c :: t) = numeralOrZero 10 (c :: t) := by
        have h0' : ¬ '0' = c := fun e => h0 e.symm
        simp [readUnsigned, h0']
      rw [e1, e2, headC_cons]
      by_cases hd : digit_value c ≥ 10
      · rw [if_pos hd]
        have : ¬ digit_value c < 10 := by omega
        simp [numeralOrZero, this]
      · rw [if_neg hd, convertDigits_clean 10 (c :: t) (by norm_num) h, numeralOrZero_eq]

/-- The constructor from text on text without white space and NUL: the
specification's reading with the binary prefix. -/
theorem ofText_eq_read (s : List Char) (h : ∀ c ∈ s, isspace c = false ∧ c ≠ NUL) :
    (BigInt.ofText s).num = readAutoBase true s := by
  have hs : ∀ c ∈ s, isspace c = false := fun c hc => (h c hc).1
  have e1 : (BigInt.ofText s).num = (mpz_set_str s 0).getD 0 := by
    unfold BigInt.ofText mpz_init_set_str mpz_set_ui
    cases mpz_set_str s 0 <;> simp
  rw [e1]
  unfold mpz_set_str
  rw [cString_of_clean s (fun c hc => (h c hc).2), dropWhile_isspace_of_clean s hs]
  simp only [if_true]
  cases s with
  | nil => decide
  | cons c t =>
    have ht : ∀ x ∈ t, isspace x = false := fun x hx => hs x (by simp [hx])
    have hur := unsigned_parse_eq_read
    by_cases hm : c = '-'
    · have e2 : readAutoBase true (c :: t) = -(readUnsigned true t) := by
        simp [readAutoBase, hm]
      rw [e2, ← hur t ht]
      simp only [headC_cons, hm, if_true, List.tail_cons]
      by_cases hd : digit_value (headC t) ≥ 10
      · simp [hd]
      · simp only [hd, if_false]
        cases convertDigits (detectBase t).1 (detectBase t).2 <;> simp
    · have e2 : readAutoBase true (c :: t) = readUnsigned true (c :: t) := by
        have hm' : ¬ '-' = c := fun e => hm e.symm
        simp [readAutoBase, hm']
      rw [e2, ← hur (c :: t) hs]
      simp only [headC_cons, hm, if_false]
      by_cases hd : digit_value c ≥ 10
      · simp [hd]
      · simp only [hd, if_false]
        cases convertDigits (detectBase (c :: t)).1 (detectBase (c :: t)).2 <;> simp

/-! ## Text conversion: round trips -/

/-- `mpz_set_str` on an optional `-` followed by digits of the base `b`, either
with `b` given as the base or with base 0 and a decimal text that does not
start with `0`. -/
theorem set_str_numeral (p : Prop) [Decidable p] (c0 : Char) (rest : List Char) (base b : Nat)
    (hb : 0 < b) (hbase : base = b ∨ (base = 0 ∧ b = 10 ∧ c0 ≠ '0'))
    (h : ∀ c ∈ c0 :: rest, digit_value c < b ∧ isspace c = false ∧ c ≠ NUL ∧ c ≠ '-') :
    mpz_set_str ((if p then ['-'] else []) ++ c0 :: rest) base =
        some (if p then -(numeralValue b (c0 :: rest) : ℤ) else (numeralValue b (c0 :: rest) : ℤ)) ∧
      (base = 0 → detectedBase ((if p then ['-'] else []) ++ c0 :: rest) = 10) := by
  have hc0 := h c0 (by simp)
  have hsp : ∀ c ∈ c0 :: rest, isspace c = false := fun c hc => (h c hc).2.1
  have hall : (c0 :: rest).all (fun c => digit_value c < b) = true := by
    rw [List.all_eq_true]
    intro c hc
    simpa using (h c hc).1
  have hcs : cString ((if p then ['-'] else []) ++ c0 :: rest) =
      (if p then ['-'] else []) ++ c0 :: rest := by
    apply cString_of_clean
    intro c hc
    by_cases hp : p
    · simp only [hp, if_true, List.singleton_append, List.mem_cons] at hc
      rcases hc with hc | hc
      · rw [hc]; decide
      · exact (h c (by simpa using hc)).2.2.1
    · simp only [hp, if_false, List.nil_append] at hc
      exact (h c hc).2.2.1
  have hdw : ((if p then ['-'] else []) ++ c0 :: rest).dropWhile isspace =
      (if p then ['-'] else []) ++ c0 :: rest := by
    by_cases hp : p
    · simp only [hp, if_true, List.singleton_append, List.dropWhile_cons]
      have : isspace '-' = false := by decide
      simp [this]
    · simp only [hp, if_false, List.nil_append, List.dropWhile_cons, hc0.2.1]
      simp
  have hneg : (headC ((if p then ['-'] else []) ++ c0 :: rest) = '-') ↔ p := by
    by_cases hp : p
    · simp [hp, headC]
    · simp [hp, headC, hc0.2.2.2]
  have hs2 : (if p then ((if p then ['-'] else []) ++ c0 :: rest).tail
      else (if p then ['-'] else []) ++ c0 :: rest) = c0 :: rest := by
    by_cases hp : p
    · simp [hp]
    · simp [hp]
  have hdet : (if base = 0 then detectBase (c0 :: rest) else (base, c0 :: rest)) =
      (b, c0 :: rest) := by
    rcases hbase with hb1 | ⟨hb1, hb2, hb3⟩
    · have : base ≠ 0 := by omega
      rw [if_neg this, hb1]
    · simp [hb1, hb2, detectBase, headC_cons, hb3]
  have hchk : ¬ digit_value (headC (c0 :: rest)) ≥ (if base = 0 then 10 else base) := by
    rw [headC_cons]
    rcases hbase with hb1 | ⟨hb1, hb2, -⟩
    · have : base ≠ 0 := by omega
      simp only [this, if_false]
      omega
    · simp only [hb1, if_true]
      omega
  constructor
  · unfold mpz_set_str
    simp only [hcs, hdw, hneg, hs2, hchk, if_false, hdet,
      convertDigits_clean b (c0 :: rest) hb hsp, hall, if_true]
  · intro hb0
    unfold detectedBase
    simp only [hcs, hdw, hneg, hs2]
    have := hdet
    rw [if_pos hb0] at this
    rw [this]
    rcases hbase with hb1 | ⟨-, hb2, -⟩
    · omega
    · exact hb2

theorem zero_char_facts (b : Nat) (hb : 0 < b) :
    ∀ c ∈ ['0'], digit_value c < b ∧ isspace c = false ∧ c ≠ NUL ∧ c ≠ '-' := by
  intro c hc
  have e : c = '0' := by simpa using hc
  subst e
  exact ⟨by
    have : digit_value '0' = 0 := by decide
    omega, by decide, by decide, by decide⟩

theorem sign_mul_natAbs (i : ℤ) :
    (if i < 0 then -((i.natAbs : Nat) : ℤ) else ((i.natAbs : Nat) : ℤ)) = i := by
  split_ifs <;> omega

/-- `mpz_set_str` with the base `b` reads the base-`b` text of an integer
back. -/
theorem set_str_intToText (b : Nat) (i : ℤ) (hb : 1 < b) (hb36 : b ≤ 36) :
    mpz_set_str (intToText b i) b = some i := by
  by_cases hi : i = 0
  · subst hi
    have := (set_str_numeral False '0' [] b b (by omega) (Or.inl rfl) (zero_char_facts b (by omega))).1
    simp only [if_false, List.nil_append] at this
    simp only [intToText, if_true]
    rw [this]
    have e : numeralValue b ['0'] = 0 := by
      have : digit_value '0' = 0 := by decide
      simp [numeralValue, this]
    rw [e]; rfl
  · obtain ⟨d0, rest, htxt, -, -, hfacts, hval⟩ :=
      digitText_facts b i.natAbs hb hb36 (Int.natAbs_ne_zero.mpr hi)
    simp only [intToText, hi, if_false, htxt]
    rw [(set_str_numeral (i < 0) (digitChar d0) rest b b (by omega) (Or.inl rfl) hfacts).1, hval,
      sign_mul_natAbs]

/-- `mpz_set_str` with base 0 reads the decimal text of an integer back; the
base it detects is 10 for a nonzero value and 8 for zero. -/
theorem set_str_auto_intToText (i : ℤ) :
    mpz_set_str (intToText 10 i) 0 = some i ∧
      detectedBase (intToText 10 i) = if i = 0 then 8 else 10 := by
  by_cases hi : i = 0
  · subst hi
    exact ⟨by decide, by decide⟩
  · obtain ⟨d0, rest, htxt, hd0, hd0b, hfacts, hval⟩ :=
      digitText_facts 10 i.natAbs (by norm_num) (by norm_num) (Int.natAbs_ne_zero.mpr hi)
    have hne : digitChar d0 ≠ '0' := fun e => hd0 ((digitChar_facts d0 (by omega)).2.2.2.2 e)
    have key := set_str_numeral (i < 0) (digitChar d0) rest 0 10 (by norm_num)
      (Or.inr ⟨rfl, rfl, hne⟩) hfacts
    simp only [intToText, hi, if_false, htxt]
    exact ⟨by rw [key.1, hval, sign_mul_natAbs], key.2 rfl⟩

/-- C13: for every integer `n`, the constructor from text applied to
`GetBase10 (n)`, `SetBase10` (on any receiver `w`) applied to `GetBase10 (n)`,
and `SetBase16` applied to `GetBase16 (n)` each yield `n`. -/
theorem text_round_trip (w : BigInt) (n : ℤ) :
    BigInt.ofText (BigInt.GetBase10 ⟨n⟩) = ⟨n⟩ ∧
    w.SetBase10 (BigInt.GetBase10 ⟨n⟩) = ⟨n⟩ ∧
    w.SetBase16 (BigInt.GetBase16 ⟨n⟩) = ⟨n⟩ := by
  have h0 := (set_str_auto_intToText n).1
  have h10 := set_str_intToText 10 n (by norm_num) (by norm_num)
  have h16 := set_str_intToText 16 n (by norm_num) (by norm_num)
  refine ⟨?_, ?_, ?_⟩
  · simp only [BigInt.ofText, BigInt.GetBase10, mpz_get_str, mpz_init_set_str, h0,
      Option.isSome_some, if_true, Option.getD_some]
  · simp only [BigInt.SetBase10, BigInt.GetBase10, mpz_get_str, h10, Option.getD_some]
  · simp only [BigInt.SetBase16, BigInt.GetBase16, mpz_get_str, h16, Option.getD_some]

/-- C14 (as stated, refuted): the text `0b101` has a leading `0` and no
`0x`/`0X` prefix, so the claim reads it as octal, finds `b` not to be an octal
digit and gives 0; the constructor takes `0b` as the binary prefix and holds
5. -/
theorem ofText_binary_prefix_counterexample :
    readAutoBase false ['0', 'b', '1', '0', '1'] = 0 ∧
    BigInt.ofText ['0', 'b', '1', '0', '1'] = ⟨5⟩ := by
  constructor <;> decide

/-- C14 (amended): for every text `s` without white space, the constructor
from text holds the integer denoted by `s`, an optional `-` followed by a
numeral read as hexadecimal after a `0x`/`0X` prefix, as binary after a
`0b`/`0B` prefix, as octal after a leading `0` and as decimal otherwise, and
holds 0 when that is not a numeral of the detected base; and for every text
`t` that `mpz_set_str` rejects the constructed value is exactly zero. -/
theorem ofText_auto_base (s : List Char) (h : ∀ c ∈ s, isspace c = false ∧ c ≠ NUL) :
    (BigInt.ofText s).num = readAutoBase true s ∧
    (∀ t : List Char, mpz_set_str t 0 = none → BigInt.ofText t = ⟨0⟩) ∧
    BigInt.ofText ['0', 'x', '1', 'F'] = ⟨31⟩ ∧
    BigInt.ofText ['0', '1', '7'] = ⟨15⟩ ∧
    BigInt.ofText ['-', '1', '7'] = ⟨-17⟩ ∧
    BigInt.ofText ['1', '2', 'a'] = ⟨0⟩ := by
  refine ⟨ofText_eq_read s h, fun t ht => ?_, by decide, by decide, by decide, by decide⟩
  unfold BigInt.ofText
  rw [ht]
  rfl

/-- Concrete instance: the text `-0Xff`. -/
theorem ofText_auto_base_witness :
    (∀ c ∈ ['-', '0', 'X', 'f', 'f'], isspace c = false ∧ c ≠ NUL) ∧
    ((BigInt.ofText ['-', '0', 'X', 'f', 'f']).num = readAutoBase true ['-', '0', 'X', 'f', 'f'] ∧
    (∀ t : List Char, mpz_set_str t 0 = none → BigInt.ofText t = ⟨0⟩) ∧
    BigInt.ofText ['0', 'x', '1', 'F'] = ⟨31⟩ ∧
    BigInt.ofText ['0', '1', '7'] = ⟨15⟩ ∧
    BigInt.ofText ['-', '1', '7'] = ⟨-17⟩ ∧
    BigInt.ofText ['1', '2', 'a'] = ⟨0⟩) :=
  ⟨by decide, ofText_auto_base ['-', '0', 'X', 'f', 'f'] (by decide)⟩

/-! ## Construction from native integers -/

/-- The decimal text of a 64-bit value fits the 30-character buffer of the
constructors. -/
theorem snprintf_ll_eq (i : ℤ) (h : i.natAbs < 2 ^ 64) :
    snprintf_ll U64STRINGSIZE i = intToText 10 i := by
  unfold snprintf_ll U64STRINGSIZE
  apply List.take_of_length_le
  unfold intToText
  split_ifs with h0 h1
  · simp
  · have hd := digitCount_le 10 i.natAbs i.natAbs 20 (lt_trans h (by norm_num))
    simp only [List.length_append, List.length_map, beDigits_length, List.length_singleton]
    omega
  · have hd := digitCount_le 10 i.natAbs i.natAbs 20 (lt_trans h (by norm_num))
    simp only [List.length_append, List.length_map, beDigits_length, List.length_nil]
    omega

/-- C15 (as stated, refuted): for the value 0 both 64-bit constructors print
the text `0`, which the base-0 parser reads under its octal rule (the value is
still 0). -/
theorem native_zero_octal_counterexample :
    snprintf_ll U64STRINGSIZE 0 = ['0'] ∧
    detectedBase (snprintf_ll U64STRINGSIZE 0) = 8 ∧
    BigInt.ofUInt64 0 = ⟨0⟩ := by
  refine ⟨by decide, by decide, by decide⟩

/-- C15 (amended): for every `uint64` `u`, `Int (u)` holds `u`; for every
`int64` `i`, `INT64_MIN` included, `Int (i)` holds `i` with its sign; the 32-bit
constructors hold their argument; the decimal text of a nonzero value is read
as decimal by the base-0 parser, and the text `0` of zero is read under the
octal rule, which gives 0 as well. -/
theorem construct_from_native (u : Nat) (i : ℤ) (hu : u < 2 ^ 64)
    (hi : -(2 ^ 63) ≤ i ∧ i < 2 ^ 63) :
    BigInt.ofUInt64 u = ⟨(u : ℤ)⟩ ∧
    BigInt.ofInt64 i = ⟨i⟩ ∧
    BigInt.ofInt32 i = ⟨i⟩ ∧
    BigInt.ofInt64 (-(2 ^ 63)) = ⟨-(2 ^ 63)⟩ ∧
    detectedBase (snprintf_ll U64STRINGSIZE (u : ℤ)) = (if u = 0 then 8 else 10) ∧
    detectedBase (snprintf_ll U64STRINGSIZE i) = (if i = 0 then 8 else 10) := by
  have hu2 : ((u : ℤ)).natAbs < 2 ^ 64 := by simpa using hu
  have hi2 : i.natAbs < 2 ^ 64 := by omega
  have hm2 : (-(2 ^ 63) : ℤ).natAbs < 2 ^ 64 := by
    have e : (-(2 ^ 63) : ℤ).natAbs = 2 ^ 63 := by rw [Int.natAbs_neg, Int.natAbs_pow]; rfl
    rw [e]; norm_num
  refine ⟨?_, ?_, rfl, ?_, ?_, ?_⟩
  · simp only [BigInt.ofUInt64, mpz_init_set_str, snprintf_ll_eq _ hu2,
      (set_str_auto_intToText (u : ℤ)).1, Option.getD_some]
  · simp only [BigInt.ofInt64, mpz_init_set_str, snprintf_ll_eq _ hi2,
      (set_str_auto_intToText i).1, Option.getD_some]
  · simp only [BigInt.ofInt64, mpz_init_set_str, snprintf_ll_eq _ hm2,
      (set_str_auto_intToText (-(2 ^ 63))).1, Option.getD_some]
  · rw [snprintf_ll_eq _ hu2, (set_str_auto_intToText (u : ℤ)).2]
    simp
  · rw [snprintf_ll_eq _ hi2, (set_str_auto_intToText i).2]

/-- Concrete instance: the largest `uint64` and the value -42. -/
theorem construct_from_native_witness :
    18446744073709551615 < 2 ^ 64 ∧ (-(2 ^ 63) ≤ (-42 : ℤ) ∧ (-42 : ℤ) < 2 ^ 63) ∧
    (BigInt.ofUInt64 18446744073709551615 = ⟨((18446744073709551615 : Nat) : ℤ)⟩ ∧
    BigInt.ofInt64 (-42) = ⟨-42⟩ ∧
    BigInt.ofInt32 (-42) = ⟨-42⟩ ∧
    BigInt.ofInt64 (-(2 ^ 63)) = ⟨-(2 ^ 63)⟩ ∧
    detectedBase (snprintf_ll U64STRINGSIZE ((18446744073709551615 : Nat) : ℤ)) =
      (if 18446744073709551615 = 0 then 8 else 10) ∧
    detectedBase (snprintf_ll U64STRINGSIZE (-42)) = (if (-42 : ℤ) = 0 then 8 else 10)) :=
  ⟨by norm_num, by norm_num,
    construct_from_native 18446744073709551615 (-42) (by norm_num) (by norm_num)⟩

end Keyarm
